import Mathlib

/-!
Verification of the ATBTCT Certificate Transparency archiver (X-Cli/ATBTCT)
against its natural-language specification.

The Python sources are shallowly embedded here:

* `src/atbtct/hashbundles.py` — `get_partial_tree_hash` (the level-by-level
  Merkle reduction), `compute_proofs` (global root and per-package inclusion
  proofs).
* `src/atbtct/getct.py` — `discover_start_index`, the power-of-two guard at the
  top of `get_ct`.
* `src/atbtct/utils.py` — `get_bundle_list` and the filename regexes.
* `src/atbtct/bittorrent.py` — `get_pieces` and the piece-length formula of
  `create_torrent`.
* the STH persistence pipeline `get_sth` / `write_sth` of `src/atbtct/getct.py`
  (a restricted model of Python's `json.loads` / `json.dumps` over flat objects
  of string keys and string/unsigned-integer values, which covers STH bodies).

SHA-256 is modelled as an abstract binary combiner `H : α → α → α` (one `H`
application stands for `SHA256(0x01 ∥ left ∥ right)`); the concrete type
`Digest` instantiates it with a free constructor, so equalities proved here are
equalities of the hash-input trees and hold for any concrete hash function.
Python's unbounded ints are `Nat`/`Int`; `&`, `^`, `<<`, `>>` are the `Nat`
bitwise operators.  Loops are embedded as fuel-indexed structural recursions
(the fuel is always initialised to a provable upper bound on the iteration
count, and fuel-irrelevance lemmas are proved below), so every definition
evaluates by kernel reduction.
-/

namespace ATBTCT

section Merkle

variable {α : Type}

/-- One pass of the `while clen != 1` loop body of `get_partial_tree_hash`
(`hashbundles.py` lines 67-85): hash adjacent pairs in order with the inner-node
combiner and carry a trailing odd element over unchanged. -/
def hashLevel (H : α → α → α) : List α → List α
  | a :: b :: t => H a b :: hashLevel H t
  | l => l

/-- Fuel-indexed form of the `get_partial_tree_hash` loop: repeat `hashLevel`
until a single element remains.  On `[]` the Python loop never exits (see the
claim C10 theorems); the model returns `none` there, and `none` on fuel
exhaustion, which never occurs at the fuel used by `get_partial_tree_hash`. -/
def gpthF (H : α → α → α) : Nat → List α → Option α
  | _, [] => none
  | _, [a] => some a
  | 0, _ :: _ :: _ => none
  | fuel + 1, a :: b :: t => gpthF H fuel (hashLevel H (a :: b :: t))

/-- `get_partial_tree_hash` (`hashbundles.py` lines 58-86): the Merkle-tree
reduction of a hash list by repeated `hashLevel` passes. -/
def get_partial_tree_hash (H : α → α → α) (l : List α) : Option α :=
  gpthF H l.length l

/-- Fuel-indexed floor of the base-2 logarithm (`flog2 n` is the index of the
highest set bit of `n`, and `0` for `n ≤ 1`). -/
def flog2F : Nat → Nat → Nat
  | 0, _ => 0
  | _, 0 => 0
  | _, 1 => 0
  | fuel + 1, n => flog2F fuel (n / 2) + 1

/-- Floor of the base-2 logarithm. -/
def flog2 (n : Nat) : Nat := flog2F n n

/-- Combine two optional subtree hashes with the inner-node hash. -/
def h2opt (H : α → α → α) : Option α → Option α → Option α
  | some x, some y => some (H x y)
  | _, _ => none

/-- Fuel-indexed RFC 6962 Merkle Tree Hash.  Modelled from the spec:
`MTH([d0..d_{n-1}]) = H(0x01 ∥ MTH(d0..d_{k-1}) ∥ MTH(d_k..d_{n-1}))` where `k`
is the largest power of two strictly less than `n` (here `k = 2 ^ flog2 (n-1)`),
over a list of already-hashed leaves, so `MTH` of a single element is that
element. -/
def mthF (H : α → α → α) : Nat → List α → Option α
  | _, [] => none
  | _, [a] => some a
  | 0, _ :: _ :: _ => none
  | fuel + 1, l =>
    let k := 2 ^ flog2 (l.length - 1)
    h2opt H (mthF H fuel (l.take k)) (mthF H fuel (l.drop k))

/-- RFC 6962 Merkle Tree Hash of a list of leaf hashes (the specification side
of claim C1; `get_partial_tree_hash` is the implementation side). -/
def mth (H : α → α → α) (l : List α) : Option α := mthF H l.length l

end Merkle

/-- Free digest algebra: `leaf i` is an opaque 32-byte hash, `node a b` stands
for `SHA256(0x01 ∥ a ∥ b)`.  Used to instantiate the abstract combiner on
concrete inputs; distinct trees denote distinct hash computations. -/
inductive Digest : Type where
  | leaf : Nat → Digest
  | node : Digest → Digest → Digest
deriving DecidableEq

section Proofs6962

variable {α : Type}

/-- `list(enumerate(hash_list))` (`hashbundles.py` line 200), generalised to an
arbitrary first index. -/
def numberFrom {β : Type} (i : Nat) : List β → List (Nat × β)
  | [] => []
  | a :: t => (i, a) :: numberFrom (i + 1) t

/-- One pass of the inner `for i in range(0, max_loop, 2)` loop of
`compute_proofs` (`hashbundles.py` lines 229-248): for every adjacent pair,
record the pair member relevant to each requested package's inclusion proof
(`proofs[pkg].append(...)`, lines 231-236), hash the pair (lines 238-243), and
carry a trailing odd element over unchanged (lines 247-248).  The proofs
accumulator is the map `pf` from package number to its proof list so far. -/
def pairIndexed (H : α → α → α) (mask canceler pstart plast : Nat) :
    List (Nat × α) → (Nat → List α) → List (Nat × α) × (Nat → List α)
  | (i1, h1) :: (_, h2) :: t, pf =>
    let pf2 : Nat → List α := fun q =>
      if pstart ≤ q ∧ q ≤ plast ∧ q &&& mask = i1 &&& mask then
        pf q ++ [if q &&& canceler ≠ 0 then h1 else h2]
      else pf q
    let r := pairIndexed H mask canceler pstart plast t pf2
    ((i1 &&& mask, H h1 h2) :: r.1, r.2)
  | l, pf => (l, pf)

/-- The list of digests one `pairIndexed` pass appends to package `q`'s proof
(used to state the `pairIndexed` proof-accumulator lemma). -/
def pairContrib (mask canceler pstart plast q : Nat) : List (Nat × α) → List α
  | (i1, h1) :: (_, h2) :: t =>
    (if pstart ≤ q ∧ q ≤ plast ∧ q &&& mask = i1 &&& mask then
      [if q &&& canceler ≠ 0 then h1 else h2]
    else []) ++ pairContrib mask canceler pstart plast q t
  | _ => []

/-- Fuel-indexed form of the `while cur_len > 1` loop of `compute_proofs`
(`hashbundles.py` lines 221-254): clear the next mask bit
(`mask ^= mask_canceler`, modelled with `Nat` xor exactly as in the source),
run one `pairIndexed` pass, then double the canceler (`mask_canceler <<= 1`). -/
def proofLoopF (H : α → α → α) (pstart plast : Nat) :
    Nat → Nat → Nat → List (Nat × α) → (Nat → List α) →
    List (Nat × α) × (Nat → List α)
  | 0, _, _, cur, pf => (cur, pf)
  | fuel + 1, mask, canceler, cur, pf =>
    if cur.length ≤ 1 then (cur, pf)
    else
      let mask2 := mask ^^^ canceler
      let r := pairIndexed H mask2 canceler pstart plast cur pf
      proofLoopF H pstart plast fuel mask2 (canceler <<< 1) r.1 r.2

/-- Fuel-indexed ceiling of the base-2 logarithm. -/
def clog2F : Nat → Nat → Nat
  | 0, _ => 0
  | fuel + 1, n => if n ≤ 1 then 0 else clog2F fuel ((n + 1) / 2) + 1

/-- Ceiling of the base-2 logarithm: the exact value of
`int(math.ceil(math.log(n) / math.log(2)))` for `n ≥ 1` (the embedding
idealises the float computation of `hashbundles.py` line 210 to exact
arithmetic). -/
def clog2 (n : Nat) : Nat := clog2F n n

/-- `compute_proofs` (`hashbundles.py` lines 187-261) minus the file I/O: from
the ordered list of package hashes, compute the global root returned on line
261 (base64 encoding elided) and the map from package number to the
`merkle_proof` list that `write_proof` stores in that package's info file.
The initial mask is `(1 << ceil(log2(last_package))) - 1` for
`last_package > 0` and `1` otherwise, as on lines 209-212. -/
def compute_proofs (H : α → α → α) (pstart plast : Nat) (hashes : List α) :
    Option α × (Nat → List α) :=
  let mask0 := if 0 < plast then 2 ^ clog2 plast - 1 else 1
  let cur0 := numberFrom 0 hashes
  let r := proofLoopF H pstart plast cur0.length mask0 1 cur0 (fun _ => [])
  ((r.1.head?).map Prod.snd, r.2)

/-- Fuel-indexed audit-path fold.  Modelled from the spec: starting from a
leaf digest at position `p` of a level of `n` nodes, repeatedly move up one
level; a node at odd position consumes the next proof element as its left
sibling, a node at even non-final position consumes it as its right sibling,
and an odd trailing node is carried up consuming nothing; the fold succeeds
only if the proof list is consumed exactly. -/
def foldAuditF (H : α → α → α) : Nat → Nat → Nat → α → List α → Option α
  | 0, _, _, _, _ => none
  | fuel + 1, p, n, acc, proof =>
    if n ≤ 1 then
      match proof with
      | [] => some acc
      | _ :: _ => none
    else if p % 2 = 1 then
      match proof with
      | e :: rest => foldAuditF H fuel (p / 2) ((n + 1) / 2) (H e acc) rest
      | [] => none
    else if p + 1 < n then
      match proof with
      | e :: rest => foldAuditF H fuel (p / 2) ((n + 1) / 2) (H acc e) rest
      | [] => none
    else foldAuditF H fuel (p / 2) ((n + 1) / 2) acc proof

/-- Audit-path fold from leaf position `p` of a tree over `n` leaves (the RFC
6962 audit-path composition rule quoted by the spec's (H2) and (T-AUDIT)). -/
def foldAudit (H : α → α → α) (p n : Nat) (leaf : α) (proof : List α) :
    Option α :=
  foldAuditF H n p n leaf proof

end Proofs6962

section Names

/-- Numeric value of a list of decimal digit characters, most significant
first: Python's `int()` on the all-digit strings produced by the filename
regex groups. -/
def digitsVal (cs : List Char) : Nat :=
  cs.foldl (fun a c => 10 * a + (c.toNat - 48)) 0

/-- The character class `[0-9]`. -/
def isDigitCh (c : Char) : Bool := c.isDigit

/-- The regex `^[0-9]{3}$` of `getct.py` line 44 (package directory names). -/
def packageNameMatch (s : String) : Bool :=
  s.data.length == 3 && s.data.all isDigitCh

/-- The regex `^[0-9]{10}-[0-9]{10}.json.gz$` of `utils.py` line 29 (bundle
file names).  The two dots are unescaped regex dots, so positions 21 and 26
match any character, as in the source. -/
def bundleNameMatch (s : String) : Bool :=
  let cs := s.data
  cs.length == 29 && (cs.take 10).all isDigitCh &&
    ((cs.drop 10).take 1 == ['-']) && (((cs.drop 11).take 10).all isDigitCh) &&
    ((cs.drop 22).take 4 == "json".data) && ((cs.drop 27) == "gz".data)

/-- `int(match.group(1))`: the start index encoded in a bundle file name. -/
def bundleStartOf (s : String) : Nat := digitsVal (s.data.take 10)

/-- `int(match.group(2))`: the end index encoded in a bundle file name. -/
def bundleEndOf (s : String) : Nat := digitsVal ((s.data.drop 11).take 10)

/-- Python's `int()` on a string, restricted to nonempty all-digit strings
(the only shape the directory layout produces); `none` models the `ValueError`
raised on anything else.  (Python additionally tolerates surrounding
whitespace and a sign, which never occur in path components here.) -/
def pyInt (s : String) : Option Nat :=
  if s.data ≠ [] ∧ s.data.all isDigitCh then some (digitsVal s.data) else none

/-- Python's `<` on strings: strict lexicographic comparison by code point,
with a proper prefix ordered first. -/
def strLtChars : List Char → List Char → Bool
  | [], [] => false
  | [], _ :: _ => true
  | _ :: _, [] => false
  | a :: as, b :: bs =>
    if a.toNat < b.toNat then true
    else if b.toNat < a.toNat then false
    else strLtChars as bs

/-- Python's `<=` on strings (`a ≤ b ↔ ¬ b < a` for this total order). -/
def strLe (a b : String) : Bool := ! strLtChars b.data a.data

/-- Insert a string into an ascending list. -/
def insertStr (s : String) : List String → List String
  | [] => [s]
  | x :: xs => if strLe s x then s :: x :: xs else x :: insertStr s xs

/-- Python's `sorted` on strings: the ascending lexicographic (code-point)
permutation.  Directory listings contain no duplicate names, so stability is
immaterial and insertion sort computes the same list. -/
def sortStrings : List String → List String
  | [] => []
  | x :: xs => insertStr x (sortStrings xs)

/-- The deduplication pass of `get_bundle_list` (`utils.py` lines 84-92) over
the sorted, regex-filtered listing: drop an entry when the next entry shares
its ten-character start group and that next entry's end index is < `tree_size`.
-/
def filterBundleCanonical (tree_size : Nat) : List String → List String
  | a :: b :: t =>
    if a.data.take 10 = b.data.take 10 ∧ bundleEndOf b < tree_size then
      filterBundleCanonical tree_size (b :: t)
    else a :: filterBundleCanonical tree_size (b :: t)
  | l => l

/-- `get_bundle_list` (`utils.py` lines 62-94): keep the regex-matching names
of the listing, sort them, then run the deduplication pass. -/
def get_bundle_list (listing : List String) (tree_size : Nat) : List String :=
  filterBundleCanonical tree_size (sortStrings (listing.filter bundleNameMatch))

/-- `discover_start_index` (`getct.py` lines 343-395).  `rootPath` is
`package_root_dir.split(os.sep)`, `rootListing` the listing of that directory,
`pkgListing` the listing of each package subdirectory by name.  Note the
empty-package branch parses the last component of `package_root_dir` — not of
the package directory — exactly as on line 381; `int()` is modelled by
`pyInt`, with `none` standing for the `ValueError` Python would raise. -/
def discover_start_index (rootPath : List String) (rootListing : List String)
    (pkgListing : String → List String) (package_size bundle_size : Nat) :
    Option Nat :=
  let package_list := sortStrings (rootListing.filter packageNameMatch)
  if hp : package_list = [] then some 0
  else
    let lastPkg := package_list.getLast hp
    let bundle_list := sortStrings ((pkgListing lastPkg).filter bundleNameMatch)
    if hb : bundle_list = [] then
      (rootPath.getLast?.bind pyInt).map
        (fun n => n * package_size * bundle_size)
    else
      let lb := bundle_list.getLast hb
      let S := bundleStartOf lb
      let E := bundleEndOf lb
      if (E : Int) - (S : Int) + 1 = (bundle_size : Int) then some (E + 1)
      else some S

end Names

section Torrent

variable {γ δ : Type}

/-- The per-file read loop of `get_pieces` (`bittorrent.py` lines 148-157):
read the file in chunks of at most `L` bytes, append each chunk to the carry
buffer `s`, and whenever the buffer holds at least `L` bytes emit the SHA-1 of
its first `L` bytes and drop them.  `fuel` bounds the number of reads; it is
always instantiated with the file length, which suffices. -/
def readLoopF (sha1 : List γ → δ) (L : Nat) :
    Nat → List γ → List γ → List δ × List γ
  | 0, _, s => ([], s)
  | fuel + 1, file, s =>
    if file.isEmpty || L == 0 then ([], s)
    else
      let s2 := s ++ file.take L
      if L ≤ s2.length then
        let r := readLoopF sha1 L fuel (file.drop L) (s2.drop L)
        (sha1 (s2.take L) :: r.1, r.2)
      else readLoopF sha1 L fuel (file.drop L) s2

/-- `get_pieces` (`bittorrent.py` lines 134-160): run the read loop over every
file in order with the carry buffer threaded through, then unconditionally
emit one final digest of the remaining buffer (`h.update(s[:piece_length])`,
lines 158-160) — even when that buffer is empty. -/
def get_pieces (sha1 : List γ → δ) (L : Nat) (files : List (List γ)) :
    List δ :=
  let r := files.foldl
    (fun (acc : List δ × List γ) f =>
      let r2 := readLoopF sha1 L f.length f acc.2
      (acc.1 ++ r2.1, r2.2))
    ([], [])
  r.1 ++ [sha1 (r.2.take L)]

/-- The piece-length computation of `create_torrent` (`bittorrent.py` lines
235-238): `max(1 << 15, ((total_size // 1500) >> 13) << 13)` where
`total_size` is the sum of the file lengths. -/
def create_torrent_piece_length (file_lengths : List Nat) : Nat :=
  max (1 <<< 15) (((file_lengths.sum / 1500) >>> 13) <<< 13)

end Torrent

section BundleSize

/-- The power-of-two test of `get_ct` (`getct.py` line 293):
`bundle_size > 0 and ((bundle_size & (bundle_size - 1)) == 0)`. -/
def bundle_size_ok (b : Nat) : Bool :=
  decide (0 < b) && (b &&& (b - 1) == 0)

/-- The guard at the top of `get_ct` (`getct.py` lines 290-294): it is the
first statement of the function, before any network request or disk write;
`Except.error` models the raised exception. -/
def get_ct_bundle_check (b : Nat) : Except String Unit :=
  if bundle_size_ok b then Except.ok ()
  else Except.error "bundle_size arg must be a power of 2"

end BundleSize

section Sth

/-- The opening brace character. -/
def obraceC : Char := Char.ofNat 123

/-- The closing brace character. -/
def cbraceC : Char := Char.ofNat 125

/-- The double-quote character. -/
def quoteC : Char := Char.ofNat 34

/-- The backslash character. -/
def bslashC : Char := Char.ofNat 92

/-- The four whitespace characters Python's `json.loads` skips between
tokens. -/
def isJsonWs (c : Char) : Bool :=
  c == ' ' || c == '\t' || c == '\n' || c == '\r'

/-- Skip inter-token whitespace. -/
def skipWs (cs : List Char) : List Char := cs.dropWhile isJsonWs

/-- JSON values of the restricted model: unsigned decimal integers and
escape-free strings — the value shapes an STH body uses. -/
inductive JVal : Type where
  | num : Nat → JVal
  | str : String → JVal
deriving DecidableEq

/-- A flat JSON object as the ordered list of its members (Python dicts
preserve insertion order, and `json.dumps` serialises them in that order). -/
abbrev Json : Type := List (String × JVal)

/-- Decimal digit characters of `n`, most significant first — Python's
`str(n)` for `n : Nat`.  Fuel-indexed; the fuel `n + 1` always suffices. -/
def natCharsF : Nat → Nat → List Char
  | 0, _ => []
  | fuel + 1, n =>
    if n < 10 then [Nat.digitChar n]
    else natCharsF fuel (n / 10) ++ [Nat.digitChar (n % 10)]

/-- Python's `str(n)` for a nonnegative integer. -/
def natChars (n : Nat) : List Char := natCharsF (n + 1) n

/-- `json.dumps` of one value (default options). -/
def dumpVal : JVal → List Char
  | JVal.num n => natChars n
  | JVal.str s => quoteC :: s.data ++ [quoteC]

/-- `json.dumps` of one member: `"key": value` (the default separator places
one space after the colon). -/
def memberChars (k : String) (v : JVal) : List Char :=
  quoteC :: k.data ++ quoteC :: ':' :: ' ' :: dumpVal v

/-- `json.dumps` of the member list, members joined by `", "` (the default
item separator). -/
def membersChars : Json → List Char
  | [] => []
  | [(k, v)] => memberChars k v
  | (k, v) :: tl => memberChars k v ++ ',' :: ' ' :: membersChars tl

/-- Python's `json.dumps` with default options on a flat object. -/
def dumps (o : Json) : String :=
  String.mk (obraceC :: membersChars o ++ [cbraceC])

/-- Parse a JSON string literal without escapes: the characters up to the
closing quote. -/
def parseStringLit : List Char → Option (String × List Char)
  | c :: rest =>
    if c = quoteC then
      match rest.dropWhile (fun d => !(d == quoteC)) with
      | d :: r2 =>
        if d = quoteC then some (String.mk (rest.takeWhile (fun d => !(d == quoteC))), r2)
        else none
      | [] => none
    else none
  | [] => none

/-- Parse a nonempty run of decimal digits as an unsigned integer. -/
def parseNumLit (cs : List Char) : Option (Nat × List Char) :=
  let ds := cs.takeWhile isDigitCh
  if ds.isEmpty then none
  else some (digitsVal ds, cs.dropWhile isDigitCh)

/-- Parse one member value (string or unsigned integer — the STH value
shapes; other JSON value forms are outside the model and yield `none`). -/
def parseVal (cs : List Char) : Option (JVal × List Char) :=
  match skipWs cs with
  | c :: rest =>
    if c = quoteC then
      (parseStringLit (c :: rest)).map (fun p => (JVal.str p.1, p.2))
    else if c.isDigit then
      (parseNumLit (c :: rest)).map (fun p => (JVal.num p.1, p.2))
    else none
  | [] => none

/-- Parse the members of a nonempty object, consuming the closing brace.
`fuel` bounds the member count; `loads` passes the remaining input length. -/
def parseMembers : Nat → List Char → Json → Option (Json × List Char)
  | 0, _, _ => none
  | fuel + 1, cs, acc =>
    match parseStringLit (skipWs cs) with
    | none => none
    | some (k, cs1) =>
      match skipWs cs1 with
      | c :: cs2 =>
        if c = ':' then
          match parseVal cs2 with
          | none => none
          | some (v, cs3) =>
            match skipWs cs3 with
            | d :: cs4 =>
              if d = ',' then parseMembers fuel cs4 (acc ++ [(k, v)])
              else if d = cbraceC then some (acc ++ [(k, v)], cs4)
              else none
            | [] => none
        else none
      | [] => none

/-- Python's `json.loads` restricted to flat objects of string keys and
string/unsigned-integer values (the STH shape): `none` models a raised
`JSONDecodeError` or a value shape outside the model.  Like `json.loads`, it
rejects trailing data after the object. -/
def loads (s : String) : Option Json :=
  match skipWs s.data with
  | c :: rest =>
    if c = obraceC then
      match skipWs rest with
      | d :: rest2 =>
        if d = cbraceC then
          if skipWs rest2 = [] then some [] else none
        else
          match parseMembers (rest.length + 1) rest [] with
          | some (o, rem) => if skipWs rem = [] then some o else none
          | none => none
      | [] => none
    else none
  | [] => none

/-- The bytes `write_sth` (`getct.py` lines 47-57) persists for a response
body `response` fetched by `get_sth` (lines 156-173): `get_sth` parses the
body with `json.loads` (line 170) and, after signature verification leaves the
object unchanged (`handle_new_sth`, lines 258-270), `write_sth` serialises it
again with `json.dumps` (line 57).  `none` models the parse failure that would
abort the run. -/
def sthWrittenBytes (response : String) : Option String :=
  (loads response).map dumps

/-- A string every character of which is printable ASCII other than the quote
and the backslash: on such strings the model's `dumps` agrees with Python's
(no escaping arises). -/
def goodString (s : String) : Prop :=
  ∀ c ∈ s.data, c ≠ quoteC ∧ c ≠ bslashC ∧ 32 ≤ c.toNat ∧ c.toNat ≤ 126

instance goodString_decidable (s : String) : Decidable (goodString s) :=
  inferInstanceAs (Decidable (∀ c ∈ s.data,
    c ≠ quoteC ∧ c ≠ bslashC ∧ 32 ≤ c.toNat ∧ c.toNat ≤ 126))

/-- A JSON value whose serialisation needs no escaping. -/
def goodVal : JVal → Prop
  | JVal.num _ => True
  | JVal.str s => goodString s

instance goodVal_decidable : (v : JVal) → Decidable (goodVal v)
  | JVal.num _ => Decidable.isTrue trivial
  | JVal.str s => goodString_decidable s

/-- Objects whose keys and string values are escape-free printable ASCII: the
domain on which the JSON model is faithful to Python byte-for-byte. -/
def wfJson (o : Json) : Prop :=
  ∀ p ∈ o, goodString p.1 ∧ goodVal p.2

instance wfJson_decidable (o : Json) : Decidable (wfJson o) :=
  inferInstanceAs (Decidable (∀ p ∈ o, goodString p.1 ∧ goodVal p.2))

end Sth

/-! ### Basic lemmas on the level reduction and the logarithm helpers -/

section MerkleLemmas

variable {α : Type}

theorem hashLevel_length (H : α → α → α) :
    ∀ l : List α, (hashLevel H l).length = (l.length + 1) / 2
  | [] => by simp [hashLevel]
  | [_] => by simp [hashLevel]
  | a :: b :: t => by
    simp only [hashLevel, List.length_cons, hashLevel_length H t]
    omega

theorem gpthF_fuel (H : α → α → α) :
    ∀ f1 : Nat, ∀ f2 : Nat, ∀ l : List α, l.length ≤ f1 → l.length ≤ f2 →
      gpthF H f1 l = gpthF H f2 l := by
  intro f1
  induction f1 using Nat.strong_induction_on with
  | _ f1 ih =>
    intro f2 l h1 h2
    match l with
    | [] => cases f1 <;> cases f2 <;> rfl
    | [a] => cases f1 <;> cases f2 <;> rfl
    | a :: b :: t =>
      simp only [List.length_cons] at h1 h2
      match f1, h1 with
      | f1 + 1, h1 =>
        match f2, h2 with
        | f2 + 1, h2 =>
          show gpthF H f1 (hashLevel H (a :: b :: t))
            = gpthF H f2 (hashLevel H (a :: b :: t))
          have hl : (hashLevel H (a :: b :: t)).length = (t.length + 3) / 2 := by
            rw [hashLevel_length]; simp only [List.length_cons]
          exact ih f1 (by omega) f2 _ (by omega) (by omega)

theorem get_partial_tree_hash_nil (H : α → α → α) :
    get_partial_tree_hash H ([] : List α) = none := rfl

theorem get_partial_tree_hash_single (H : α → α → α) (a : α) :
    get_partial_tree_hash H [a] = some a := rfl

theorem get_partial_tree_hash_step (H : α → α → α) (l : List α)
    (h : 2 ≤ l.length) :
    get_partial_tree_hash H l = get_partial_tree_hash H (hashLevel H l) := by
  match l with
  | [] => simp at h
  | [a] => simp at h
  | a :: b :: t =>
    show gpthF H ((a :: b :: t).length) (a :: b :: t) = _
    have h0 : (a :: b :: t).length = (t.length + 1) + 1 := by simp
    rw [h0]
    show gpthF H (t.length + 1) (hashLevel H (a :: b :: t)) = _
    apply gpthF_fuel
    · rw [hashLevel_length]; simp only [List.length_cons]; omega
    · rfl

theorem flog2F_fuel :
    ∀ f1 : Nat, ∀ f2 : Nat, ∀ m : Nat, m ≤ f1 → m ≤ f2 →
      flog2F f1 m = flog2F f2 m := by
  intro f1
  induction f1 using Nat.strong_induction_on with
  | _ f1 ih =>
    intro f2 m h1 h2
    match m with
    | 0 => cases f1 <;> cases f2 <;> rfl
    | 1 => cases f1 <;> cases f2 <;> rfl
    | m + 2 =>
      match f1, h1 with
      | f1 + 1, h1 =>
        match f2, h2 with
        | f2 + 1, h2 =>
          show flog2F f1 ((m + 2) / 2) + 1 = flog2F f2 ((m + 2) / 2) + 1
          rw [ih f1 (by omega) f2 ((m + 2) / 2) (by omega) (by omega)]

theorem flog2_step (m : Nat) (h : 2 ≤ m) : flog2 m = flog2 (m / 2) + 1 := by
  match m, h with
  | m + 2, _ =>
    show flog2F (m + 1 + 1) (m + 2) = _
    show flog2F (m + 1) ((m + 2) / 2) + 1 = _
    rw [flog2F_fuel (m + 1) ((m + 2) / 2) ((m + 2) / 2) (by omega) (by omega)]
    rfl

theorem flog2_sandwich :
    ∀ m : Nat, 1 ≤ m → 2 ^ flog2 m ≤ m ∧ m < 2 ^ (flog2 m + 1) := by
  intro m
  induction m using Nat.strong_induction_on with
  | _ m ih =>
    intro hm
    match m, hm with
    | 1, _ => exact ⟨le_refl 1, by norm_num⟩
    | m + 2, _ =>
      rw [flog2_step (m + 2) (by omega)]
      obtain ⟨ha, hb⟩ := ih ((m + 2) / 2) (by omega) (by omega)
      constructor
      · calc 2 ^ (flog2 ((m + 2) / 2) + 1) = 2 * 2 ^ flog2 ((m + 2) / 2) := by ring
          _ ≤ 2 * ((m + 2) / 2) := by omega
          _ ≤ m + 2 := by omega
      · have : m + 2 < 2 * ((m + 2) / 2) + 2 := by omega
        calc m + 2 < 2 * ((m + 2) / 2) + 2 := this
          _ ≤ 2 * (2 ^ (flog2 ((m + 2) / 2) + 1) - 1) + 2 := by omega
          _ ≤ 2 ^ (flog2 ((m + 2) / 2) + 1 + 1) := by
              have h1 : 1 ≤ 2 ^ (flog2 ((m + 2) / 2) + 1) := Nat.one_le_two_pow
              have h2 : 2 ^ (flog2 ((m + 2) / 2) + 1 + 1)
                  = 2 * 2 ^ (flog2 ((m + 2) / 2) + 1) := by ring
              omega

theorem flog2_eq_of (m j : Nat) (h1 : 2 ^ j ≤ m) (h2 : m < 2 ^ (j + 1)) :
    flog2 m = j := by
  have hm : 1 ≤ m := le_trans Nat.one_le_two_pow h1
  obtain ⟨ha, hb⟩ := flog2_sandwich m hm
  rcases Nat.lt_trichotomy (flog2 m) j with hlt | heq | hgt
  · have : 2 ^ (flog2 m + 1) ≤ 2 ^ j :=
      Nat.pow_le_pow_right (by norm_num) (by omega)
    omega
  · exact heq
  · have : 2 ^ (j + 1) ≤ 2 ^ flog2 m :=
      Nat.pow_le_pow_right (by norm_num) (by omega)
    omega

theorem clog2F_fuel :
    ∀ f1 : Nat, ∀ f2 : Nat, ∀ m : Nat, m ≤ f1 → m ≤ f2 →
      clog2F f1 m = clog2F f2 m := by
  intro f1
  induction f1 using Nat.strong_induction_on with
  | _ f1 ih =>
    intro f2 m h1 h2
    match m with
    | 0 => cases f1 <;> cases f2 <;> rfl
    | 1 => cases f1 <;> cases f2 <;> rfl
    | m + 2 =>
      match f1, h1 with
      | f1 + 1, h1 =>
        match f2, h2 with
        | f2 + 1, h2 =>
          show clog2F (f1 + 1) (m + 2) = clog2F (f2 + 1) (m + 2)
          simp only [clog2F, show ¬ (m + 2 ≤ 1) by omega, if_false]
          rw [ih f1 (by omega) f2 ((m + 2 + 1) / 2) (by omega) (by omega)]

theorem clog2_step (m : Nat) (h : 2 ≤ m) :
    clog2 m = clog2 ((m + 1) / 2) + 1 := by
  match m, h with
  | m + 2, _ =>
    show clog2F (m + 2) (m + 2) = _
    have h1 : clog2F (m + 2) (m + 2)
        = clog2F (m + 1) ((m + 2 + 1) / 2) + 1 := by
      simp only [clog2F, show ¬ (m + 2 ≤ 1) by omega, if_false]
    rw [h1, clog2F_fuel (m + 1) ((m + 2 + 1) / 2) ((m + 2 + 1) / 2)
      (by omega) (by omega)]
    rfl

theorem le_two_pow_clog2 : ∀ m : Nat, m ≤ 2 ^ clog2 m := by
  intro m
  induction m using Nat.strong_induction_on with
  | _ m ih =>
    match m with
    | 0 => exact Nat.zero_le _
    | 1 => exact le_refl 1
    | m + 2 =>
      rw [clog2_step (m + 2) (by omega)]
      have h1 := ih ((m + 2 + 1) / 2) (by omega)
      have h2 : 2 ^ (clog2 ((m + 2 + 1) / 2) + 1)
          = 2 * 2 ^ clog2 ((m + 2 + 1) / 2) := by ring
      omega

theorem two_pow_pred (j : Nat) (h : 1 ≤ j) : 2 ^ j = 2 * 2 ^ (j - 1) := by
  match j, h with
  | j + 1, _ =>
    rw [pow_succ, Nat.add_sub_cancel]
    ring

end MerkleLemmas

/-! ### Claim C8 — torrent piece length -/

/-- Claim C8 (confirmed): for every torrent file list, the chosen piece length
is `max(2^15, ((T // 1500) >> 13) << 13)` over the total content size `T`
under exact integer arithmetic — equivalently, the larger of 32768 and the
greatest multiple of 8192 not exceeding `T / 1500` — and it takes the values
32768, 32768 and 196608 at `T` = 3000000, 30000000 and 300000000. -/
theorem create_torrent_piece_length_spec :
    (∀ fl : List Nat, create_torrent_piece_length fl
      = max (2 ^ 15) (fl.sum / 1500 / 2 ^ 13 * 2 ^ 13)) ∧
    create_torrent_piece_length [3000000] = 32768 ∧
    create_torrent_piece_length [30000000] = 32768 ∧
    create_torrent_piece_length [300000000] = 196608 := by
  refine ⟨fun fl => ?_, rfl, rfl, rfl⟩
  simp [create_torrent_piece_length, Nat.shiftLeft_eq, Nat.shiftRight_eq_div_pow]

/-! ### Claim C9 — bundle-size power-of-two guard -/

theorem and_pred_eq_zero_iff :
    ∀ b : Nat, 0 < b → ((b &&& (b - 1) = 0) ↔ ∃ k, b = 2 ^ k) := by
  intro b
  induction b using Nat.strong_induction_on with
  | _ b ih =>
    intro hb
    constructor
    · intro h
      have hbit : ∀ j, ((b / 2).testBit j && ((b - 1) / 2).testBit j) = false := by
        intro j
        have h1 : (b &&& (b - 1)).testBit (j + 1) = false := by
          rw [h]; exact Nat.zero_testBit (j + 1)
        rwa [Nat.testBit_and, Nat.testBit_succ, Nat.testBit_succ] at h1
      rcases Nat.mod_two_eq_zero_or_one b with hp | hp
      · -- even case: b = 2 * (b / 2), recurse on b / 2
        have hdiv : (b - 1) / 2 = b / 2 - 1 := by omega
        have hc1 : 0 < b / 2 := by omega
        have hkey : b / 2 &&& (b / 2 - 1) = 0 := by
          apply Nat.eq_of_testBit_eq
          intro j
          have hb1 := hbit j
          rw [hdiv] at hb1
          rw [Nat.testBit_and, hb1]
          exact (Nat.zero_testBit j).symm
        obtain ⟨k, hk⟩ := (ih (b / 2) (by omega) hc1).1 hkey
        refine ⟨k + 1, ?_⟩
        rw [pow_succ]
        omega
      · -- odd case: all higher bits of b and b - 1 agree, so b / 2 = 0, b = 1
        have hdiv : (b - 1) / 2 = b / 2 := by omega
        have hz : b / 2 = 0 := by
          apply Nat.zero_of_testBit_eq_false
          intro j
          have hb1 := hbit j
          rw [hdiv, Bool.and_self] at hb1
          exact hb1
        have hb1 : b = 1 := by omega
        exact ⟨0, by omega⟩
    · rintro ⟨k, rfl⟩
      apply Nat.eq_of_testBit_eq
      intro i
      simp only [Nat.testBit_and, Nat.testBit_two_pow, Nat.testBit_two_pow_sub_one,
        Nat.zero_testBit]
      by_cases hk : k = i
      · subst hk; simp
      · simp [hk]

theorem bundle_size_ok_iff (b : Nat) :
    bundle_size_ok b = true ↔ ∃ k, b = 2 ^ k := by
  unfold bundle_size_ok
  rcases Nat.eq_zero_or_pos b with rfl | hb
  · simp only [Bool.and_eq_true, decide_eq_true_eq]
    constructor
    · rintro ⟨h, _⟩; omega
    · rintro ⟨k, hk⟩
      have : 0 < 2 ^ k := Nat.pos_pow_of_pos k (by norm_num)
      omega
  · simp only [Bool.and_eq_true, decide_eq_true_eq, beq_iff_eq]
    rw [← and_pred_eq_zero_iff b hb]
    exact ⟨fun h => h.2, fun h => ⟨hb, h⟩⟩

/-- Claim C9 (confirmed): the first statement of `get_ct` accepts `bundle_size`
exactly when it is a (positive) power of two, and raises the bundle-size error
— before any network request or disk write, since the guard precedes every
other statement of the function — exactly when it is not. -/
theorem get_ct_bundle_check_iff (b : Nat) :
    (get_ct_bundle_check b = Except.ok () ↔ ∃ k, b = 2 ^ k) ∧
    (get_ct_bundle_check b
        = Except.error "bundle_size arg must be a power of 2"
      ↔ ¬ ∃ k, b = 2 ^ k) := by
  have hiff := bundle_size_ok_iff b
  by_cases hok : bundle_size_ok b = true
  · rw [hiff] at hok
    unfold get_ct_bundle_check
    rw [if_pos (hiff.2 hok)]
    constructor
    · exact ⟨fun _ => hok, fun _ => rfl⟩
    · constructor
      · intro h; simp at h
      · intro h; exact absurd hok h
  · have hnot : ¬ ∃ k, b = 2 ^ k := fun hex => hok (hiff.2 hex)
    unfold get_ct_bundle_check
    rw [if_neg hok]
    constructor
    · constructor
      · intro h; simp at h
      · intro h; exact absurd h hnot
    · exact ⟨fun _ => hnot, fun _ => rfl⟩

/-- Witness for C9: `bundle_size = 1024` passes the guard, `bundle_size = 1000`
raises the bundle-size error. -/
theorem get_ct_bundle_check_iff_witness :
    get_ct_bundle_check 1024 = Except.ok () ∧
    get_ct_bundle_check 1000
      = Except.error "bundle_size arg must be a power of 2" := by
  constructor
  · exact (get_ct_bundle_check_iff 1024).1.2 ⟨10, by norm_num⟩
  · refine (get_ct_bundle_check_iff 1000).2.2 ?_
    rintro ⟨k, hk⟩
    rcases Nat.lt_or_ge k 10 with h | h
    · interval_cases k <;> omega
    · have : 2 ^ 10 ≤ 2 ^ k := Nat.pow_le_pow_right (by norm_num) h
      norm_num at this
      omega

/-! ### Claim C4 — torrent pieces -/

/-- Claim C4 (code_bug): with piece length 4 and two files totalling 8 bytes —
a positive multiple of the piece length — `get_pieces` emits three digests, the
last over the empty byte string, where the claim (and BEP-0003) require
exactly ceil(8/4) = 2.  The digest function is instantiated with the identity,
so each emitted digest reads back as the piece that was hashed; the final
`yield` of `bittorrent.py` lines 158-160 runs unconditionally. -/
theorem get_pieces_extra_empty_tail :
    get_pieces (fun l => l) 4 [[1, 2, 3, 4], [5, 6, 7, 8]]
      = [[1, 2, 3, 4], [5, 6, 7, 8], []] ∧
    (get_pieces (fun l => l) 4 [[1, 2, 3, 4], [5, 6, 7, 8]]).length = 3 := by
  exact ⟨rfl, rfl⟩

/-! ### Claim C3 — resume index for an empty last package -/

/-- Claim C3 (code_bug): for a package root directory named `007` whose last
(and only) package directory `003` is empty, with `package_size = 2` and
`bundle_size = 4`, `discover_start_index` returns `int("007") * 2 * 4 = 56` —
it parses the *root* directory's name (`getct.py` line 381) — whereas the
claim (and the surrounding comment, lines 379-380) call for the last package's
number: `3 * 2 * 4 = 24`. -/
theorem discover_start_index_uses_root_name :
    discover_start_index ["007"] ["003"] (fun _ => []) 2 4 = some 56 ∧
    discover_start_index ["007"] ["003"] (fun _ => []) 2 4 ≠ some (3 * 2 * 4) := by
  exact ⟨rfl, by decide⟩

/-! ### Claim C5 — canonical bundle selection -/

/-- Claim C5 (code_bug): at `tree_size = 150`, a listing holding two bundles
with the same start index 0 and end indices 100 and 200 is returned whole by
`get_bundle_list` — two files for one start index, and a file whose end index
exceeds `tree_size - 1` among them — because the linear pass of `utils.py`
lines 86-92 never compares the current entry's own end index with `tree_size`
and always keeps the last entry of a group; the claim requires the single file
with the largest end index ≤ 149, i.e. only `0000000000-0000000100.json.gz`. -/
theorem get_bundle_list_two_for_one_start :
    get_bundle_list
        ["0000000000-0000000200.json.gz", "0000000000-0000000100.json.gz"] 150
      = ["0000000000-0000000100.json.gz", "0000000000-0000000200.json.gz"] := by
  decide

/-! ### Claim C6 — resume index from the last bundle -/

/-- Claim C6 (confirmed): when the last package directory holds at least one
bundle, `discover_start_index` takes the lexicographically last matching
bundle file, spanning `[S, E]`; if it is full (`E - S + 1 = bundle_size`) the
function returns `E + 1`, and if it is partial (`E - S + 1 < bundle_size`) it
returns `S` — so an interrupted run resumes at the first unwritten entry or at
the start of the partial bundle. -/
theorem discover_start_index_resume
    (rootPath rootListing : List String) (pkgListing : String → List String)
    (P B : Nat) (pkgs : List String)
    (hpkgs : pkgs = sortStrings (rootListing.filter packageNameMatch))
    (hne : pkgs ≠ [])
    (bl : List String)
    (hbl : bl = sortStrings ((pkgListing (pkgs.getLast hne)).filter bundleNameMatch))
    (hbne : bl ≠ []) (S E : Nat)
    (hS : S = bundleStartOf (bl.getLast hbne))
    (hE : E = bundleEndOf (bl.getLast hbne)) :
    ((E : Int) - (S : Int) + 1 = (B : Int) →
      discover_start_index rootPath rootListing pkgListing P B = some (E + 1)) ∧
    ((E : Int) - (S : Int) + 1 < (B : Int) →
      discover_start_index rootPath rootListing pkgListing P B = some S) := by
  subst hpkgs
  subst hbl
  subst hS
  subst hE
  unfold discover_start_index
  rw [dif_neg hne, dif_neg hbne]
  constructor
  · intro hcond
    rw [if_pos hcond]
  · intro hcond
    rw [if_neg (by omega)]

/-- Witness for C6: with `bundle_size = 4`, the sole bundle
`0000000000-0000000003.json.gz` is full and resume is `4`; with
`bundle_size = 8` the same bundle is partial and resume is its start `0`. -/
theorem discover_start_index_resume_witness :
    discover_start_index ["x"] ["000"]
        (fun _ => ["0000000000-0000000003.json.gz"]) 2 4 = some 4 ∧
    discover_start_index ["x"] ["000"]
        (fun _ => ["0000000000-0000000003.json.gz"]) 2 8 = some 0 := by
  constructor
  · exact (discover_start_index_resume ["x"] ["000"]
      (fun _ => ["0000000000-0000000003.json.gz"]) 2 4
      ["000"] (by decide) (by decide)
      ["0000000000-0000000003.json.gz"] (by decide) (by decide)
      0 3 (by decide) (by decide)).1 (by decide)
  · exact (discover_start_index_resume ["x"] ["000"]
      (fun _ => ["0000000000-0000000003.json.gz"]) 2 8
      ["000"] (by decide) (by decide)
      ["0000000000-0000000003.json.gz"] (by decide) (by decide)
      0 3 (by decide) (by decide)).2 (by decide)

/-! ### Claims C1 and C10 — the level reduction computes the RFC 6962 MTH -/

section MthLemmas

variable {α : Type}

theorem mthF_fuel (H : α → α → α) :
    ∀ f1 : Nat, ∀ f2 : Nat, ∀ l : List α, l.length ≤ f1 → l.length ≤ f2 →
      mthF H f1 l = mthF H f2 l := by
  intro f1
  induction f1 using Nat.strong_induction_on with
  | _ f1 ih =>
    intro f2 l h1 h2
    match l with
    | [] => cases f1 <;> cases f2 <;> rfl
    | [a] => cases f1 <;> cases f2 <;> rfl
    | a :: b :: t =>
      have hlen : (a :: b :: t).length = t.length + 2 := by simp
      have hk1 : 1 ≤ 2 ^ flog2 ((a :: b :: t).length - 1) := Nat.one_le_two_pow
      have hk2 : 2 ^ flog2 ((a :: b :: t).length - 1) ≤ (a :: b :: t).length - 1 :=
        (flog2_sandwich _ (by omega)).1
      simp only [List.length_cons] at h1 h2
      match f1, h1 with
      | f1 + 1, h1 =>
        match f2, h2 with
        | f2 + 1, h2 =>
          show h2opt H
              (mthF H f1 ((a :: b :: t).take (2 ^ flog2 ((a :: b :: t).length - 1))))
              (mthF H f1 ((a :: b :: t).drop (2 ^ flog2 ((a :: b :: t).length - 1))))
            = h2opt H
              (mthF H f2 ((a :: b :: t).take (2 ^ flog2 ((a :: b :: t).length - 1))))
              (mthF H f2 ((a :: b :: t).drop (2 ^ flog2 ((a :: b :: t).length - 1))))
          rw [ih f1 (by omega) f2 _
              (by simp only [List.length_take]; omega)
              (by simp only [List.length_take]; omega),
            ih f1 (by omega) f2 _
              (by simp only [List.length_drop]; omega)
              (by simp only [List.length_drop]; omega)]

theorem mth_nil (H : α → α → α) : mth H ([] : List α) = none := rfl

theorem mth_single (H : α → α → α) (a : α) : mth H [a] = some a := rfl

theorem mth_split (H : α → α → α) (l : List α) (h : 2 ≤ l.length) :
    mth H l = h2opt H (mth H (l.take (2 ^ flog2 (l.length - 1))))
      (mth H (l.drop (2 ^ flog2 (l.length - 1)))) := by
  match l with
  | a :: b :: t =>
    have hk1 : 1 ≤ 2 ^ flog2 (t.length + 1 + 1 - 1) := Nat.one_le_two_pow
    have hk2 : 2 ^ flog2 (t.length + 1 + 1 - 1) ≤ t.length + 1 := by
      have h0 := (flog2_sandwich (t.length + 1 + 1 - 1) (by omega)).1
      omega
    show h2opt H
        (mthF H (t.length + 1)
          ((a :: b :: t).take (2 ^ flog2 ((a :: b :: t).length - 1))))
        (mthF H (t.length + 1)
          ((a :: b :: t).drop (2 ^ flog2 ((a :: b :: t).length - 1))))
      = _
    unfold mth
    rw [mthF_fuel H (t.length + 1) _ _
        (by simp only [List.length_take, List.length_cons]; omega) (le_refl _),
      mthF_fuel H (t.length + 1) _ _
        (by simp only [List.length_drop, List.length_cons]; omega) (le_refl _)]

theorem mth_ne_none (H : α → α → α) :
    ∀ l : List α, l ≠ [] → ∃ x, mth H l = some x := by
  suffices key : ∀ n : Nat, ∀ l : List α, l.length = n → l ≠ [] →
      ∃ x, mth H l = some x by
    intro l hl; exact key l.length l rfl hl
  intro n
  induction n using Nat.strong_induction_on with
  | _ n ih =>
    intro l hlen hne
    match l with
    | [a] => exact ⟨a, rfl⟩
    | a :: b :: t =>
      subst hlen
      have hsp := mth_split H (a :: b :: t) (by simp only [List.length_cons]; omega)
      set k := 2 ^ flog2 ((a :: b :: t).length - 1) with hk
      have hk1 : 1 ≤ k := Nat.one_le_two_pow
      have hk2 : k ≤ (a :: b :: t).length - 1 :=
        (flog2_sandwich _ (by simp only [List.length_cons]; omega)).1
      have hL : (a :: b :: t).length = t.length + 2 := by simp
      obtain ⟨x, hx⟩ := ih ((a :: b :: t).take k).length
        (by rw [List.length_take, hL]; omega) ((a :: b :: t).take k) rfl
        (by
          intro he
          have h0 := congrArg List.length he
          rw [List.length_take, hL] at h0
          simp at h0
          omega)
      obtain ⟨y, hy⟩ := ih ((a :: b :: t).drop k).length
        (by rw [List.length_drop, hL]; omega) ((a :: b :: t).drop k) rfl
        (by
          intro he
          have h0 := congrArg List.length he
          rw [List.length_drop, hL] at h0
          simp only [List.length_nil] at h0
          omega)
      rw [hsp, hx, hy]
      exact ⟨H x y, rfl⟩

theorem hashLevel_append (H : α → α → α) :
    ∀ l1 : List α, 2 ∣ l1.length → ∀ l2 : List α,
      hashLevel H (l1 ++ l2) = hashLevel H l1 ++ hashLevel H l2
  | [], _, _ => rfl
  | [a], h, l2 => by
    simp only [List.length_cons, List.length_nil] at h
    omega
  | a :: b :: t, h, l2 => by
    have ht : 2 ∣ t.length := by simp only [List.length_cons] at h; omega
    show H a b :: hashLevel H (t ++ l2)
      = H a b :: (hashLevel H t ++ hashLevel H l2)
    rw [hashLevel_append H t ht l2]

theorem mth_hashLevel (H : α → α → α) :
    ∀ l : List α, mth H (hashLevel H l) = mth H l := by
  suffices key : ∀ n : Nat, ∀ l : List α, l.length = n →
      mth H (hashLevel H l) = mth H l by
    exact fun l => key l.length l rfl
  intro n
  induction n using Nat.strong_induction_on with
  | _ n ih =>
    intro l hlen
    match l with
    | [] => rfl
    | [a] => rfl
    | [a, b] => rfl
    | a :: b :: c :: t =>
      subst hlen
      have hL : (a :: b :: c :: t).length = t.length + 3 := by simp
      obtain ⟨hs1, hs2⟩ :=
        flog2_sandwich ((a :: b :: c :: t).length - 1) (by simp only [List.length_cons]; omega)
      set j := flog2 ((a :: b :: c :: t).length - 1) with hj
      set k := 2 ^ j with hk
      have hj1 : 1 ≤ j := by
        by_contra h0
        have hz : j = 0 := by omega
        have h1 : 2 ^ (j + 1) = 2 := by rw [hz]; norm_num
        omega
      have hkd : k = 2 * 2 ^ (j - 1) := by
        rw [hk]
        exact two_pow_pred j hj1
      have hkeven : 2 ∣ k := ⟨2 ^ (j - 1), hkd⟩
      have hk1 : 1 ≤ k := by
        have : 0 < 2 ^ (j - 1) := Nat.pos_pow_of_pos _ (by norm_num)
        omega
      have hkn : k < (a :: b :: c :: t).length := by omega
      have h2k : (a :: b :: c :: t).length ≤ 2 * k := by
        have hp : 2 ^ (j + 1) = 2 * k := by rw [hk, pow_succ]; ring
        omega
      have hsplit : (a :: b :: c :: t).take k ++ (a :: b :: c :: t).drop k
          = a :: b :: c :: t := List.take_append_drop k _
      have hlen_take : ((a :: b :: c :: t).take k).length = k := by
        rw [List.length_take]; omega
      have hHL : hashLevel H (a :: b :: c :: t)
          = hashLevel H ((a :: b :: c :: t).take k)
            ++ hashLevel H ((a :: b :: c :: t).drop k) := by
        conv_lhs => rw [← hsplit]
        exact hashLevel_append H _ (by rw [hlen_take]; exact hkeven) _
      have hlenHL : (hashLevel H (a :: b :: c :: t)).length
          = ((a :: b :: c :: t).length + 1) / 2 := hashLevel_length H _
      have hlenHL1 : (hashLevel H ((a :: b :: c :: t).take k)).length = k / 2 := by
        rw [hashLevel_length, hlen_take]; omega
      have hn2 : 2 ≤ (hashLevel H (a :: b :: c :: t)).length := by
        rw [hlenHL]; omega
      rw [mth_split H _ hn2]
      have hexp : 2 ^ ((j - 1) + 1) = k := by
        have hj2 : (j - 1) + 1 = j := by omega
        rw [hj2, hk]
      have hk2eq : 2 ^ flog2 ((hashLevel H (a :: b :: c :: t)).length - 1)
          = k / 2 := by
        have hkhalf : k / 2 = 2 ^ (j - 1) := by omega
        have hflog : flog2 (((a :: b :: c :: t).length + 1) / 2 - 1) = j - 1 :=
          flog2_eq_of _ _ (by omega) (by omega)
        rw [hlenHL, hflog, hkhalf]
      rw [hk2eq]
      have htake2 : (hashLevel H (a :: b :: c :: t)).take (k / 2)
          = hashLevel H ((a :: b :: c :: t).take k) := by
        rw [hHL]; exact List.take_left' hlenHL1
      have hdrop2 : (hashLevel H (a :: b :: c :: t)).drop (k / 2)
          = hashLevel H ((a :: b :: c :: t).drop k) := by
        rw [hHL]; exact List.drop_left' hlenHL1
      rw [htake2, hdrop2]
      rw [ih ((a :: b :: c :: t).take k).length (by rw [hlen_take]; omega) _ rfl,
        ih ((a :: b :: c :: t).drop k).length
          (by rw [List.length_drop]; omega) _ rfl]
      exact (mth_split H _ (by simp only [List.length_cons]; omega)).symm

end MthLemmas

/-- Claim C1 (confirmed): the Merkle reduction of `get_partial_tree_hash` —
level-by-level pairing with an odd carry — computes exactly the RFC 6962
Merkle Tree Hash with its largest-power-of-two split rule, for every list of
leaf hashes, of any length, power of two or not.  Both uses in
`compute_package` (`hashbundles.py` lines 283 and 286) are instances: the
per-bundle reduction of the leaf hashes (the partial tail bundle included) and
the package-level reduction of the bundle hashes. -/
theorem get_partial_tree_hash_eq_mth {α : Type} (H : α → α → α) (l : List α) :
    get_partial_tree_hash H l = mth H l := by
  suffices key : ∀ n : Nat, ∀ l : List α, l.length = n →
      get_partial_tree_hash H l = mth H l by
    exact key l.length l rfl
  intro n
  induction n using Nat.strong_induction_on with
  | _ n ih =>
    intro l hlen
    match l with
    | [] => rfl
    | [a] => rfl
    | a :: b :: t =>
      subst hlen
      rw [get_partial_tree_hash_step H _ (by simp only [List.length_cons]; omega)]
      rw [ih (hashLevel H (a :: b :: t)).length
        (by rw [hashLevel_length]; simp only [List.length_cons]; omega) _ rfl]
      exact mth_hashLevel H _

/-- Claim C10 (confirmed): on every non-empty hash list the
`get_partial_tree_hash` loop reaches a single element after finitely many
`hashLevel` passes and returns that digest; on the empty list (a package
directory with no canonical bundle, whence `compute_package` line 286 receives
`[]`) every iterate of the loop body is again the empty list, so the loop
guard `clen != 1` never becomes false and the call never returns. -/
theorem get_partial_tree_hash_termination {α : Type} (H : α → α → α) :
    (∀ l : List α, l ≠ [] →
      ∃ j a, (hashLevel H)^[j] l = [a] ∧ get_partial_tree_hash H l = some a) ∧
    (∀ j, (hashLevel H)^[j] ([] : List α) = []) := by
  constructor
  · suffices key : ∀ n : Nat, ∀ l : List α, l.length = n → l ≠ [] →
        ∃ j a, (hashLevel H)^[j] l = [a] ∧ get_partial_tree_hash H l = some a by
      exact fun l hl => key l.length l rfl hl
    intro n
    induction n using Nat.strong_induction_on with
    | _ n ih =>
      intro l hlen hne
      match l with
      | [a] => exact ⟨0, a, rfl, rfl⟩
      | a :: b :: t =>
        subst hlen
        obtain ⟨j, x, hiter, hres⟩ := ih (hashLevel H (a :: b :: t)).length
          (by rw [hashLevel_length]; simp only [List.length_cons]; omega)
          (hashLevel H (a :: b :: t)) rfl
          (by
            intro he
            have h0 := congrArg List.length he
            rw [hashLevel_length] at h0
            simp only [List.length_cons, List.length_nil] at h0
            omega)
        refine ⟨j + 1, x, ?_, ?_⟩
        · rw [Function.iterate_succ_apply]
          exact hiter
        · rw [get_partial_tree_hash_step H _ (by simp only [List.length_cons]; omega)]
          exact hres
  · intro j
    induction j with
    | zero => rfl
    | succ j ihj =>
      rw [Function.iterate_succ_apply]
      exact ihj

/-- Witness for C10: the two-leaf list reaches a singleton and returns its
root, and five loop passes on the empty list all yield the empty list. -/
theorem get_partial_tree_hash_termination_witness :
    (∃ j a, (hashLevel Digest.node)^[j] [Digest.leaf 0, Digest.leaf 1] = [a] ∧
      get_partial_tree_hash Digest.node [Digest.leaf 0, Digest.leaf 1] = some a) ∧
    (hashLevel Digest.node)^[5] ([] : List Digest) = [] := by
  exact ⟨(get_partial_tree_hash_termination Digest.node).1 _ (by decide),
    (get_partial_tree_hash_termination Digest.node).2 5⟩

/-! ### Claim C7 — STH persistence re-serialises -/

section ProofsLemmas

variable {α : Type}

theorem testBit_two_pow_sub_pow (w u i : Nat) (h : u ≤ w) :
    (2 ^ w - 2 ^ u).testBit i = (decide (u ≤ i) && decide (i < w)) := by
  have hrw : 2 ^ w - 2 ^ u = 2 ^ u * (2 ^ (w - u) - 1) + 0 := by
    rw [Nat.add_zero, Nat.mul_sub, Nat.mul_one, ← pow_add]
    congr 2
    omega
  rw [hrw, Nat.testBit_mul_pow_two_add _ (Nat.two_pow_pos u)]
  by_cases hi : i < u
  · rw [if_pos hi]
    simp [Nat.zero_testBit, show ¬ u ≤ i by omega]
  · rw [if_neg hi, Nat.testBit_two_pow_sub_one]
    have h1 : u ≤ i := by omega
    by_cases h2 : i < w
    · have h3 : i - u < w - u := by omega
      simp [h1, h2, h3]
    · have h3 : ¬ (i - u < w - u) := by omega
      simp [h1, h2, h3]

theorem and_two_pow_sub_pow (x w u : Nat) (hx : x < 2 ^ w) (h : u ≤ w) :
    x &&& (2 ^ w - 2 ^ u) = 2 ^ u * (x / 2 ^ u) := by
  apply Nat.eq_of_testBit_eq
  intro i
  rw [Nat.testBit_and, testBit_two_pow_sub_pow w u i h]
  have hrw : 2 ^ u * (x / 2 ^ u) = 2 ^ u * (x / 2 ^ u) + 0 := by omega
  rw [hrw, Nat.testBit_mul_pow_two_add _ (Nat.two_pow_pos u)]
  by_cases hi : i < u
  · rw [if_pos hi]
    simp [Nat.zero_testBit, show ¬ u ≤ i by omega]
  · rw [if_neg hi]
    have h1 : u ≤ i := by omega
    have h2 : (x / 2 ^ u).testBit (i - u) = x.testBit i := by
      rw [← Nat.shiftRight_eq_div_pow, Nat.testBit_shiftRight]
      congr 1
      omega
    rw [h2]
    by_cases h3 : i < w
    · simp [h1, h3]
    · have h4 : x.testBit i = false :=
        Nat.testBit_lt_two_pow
          (Nat.lt_of_lt_of_le hx (Nat.pow_le_pow_right (by norm_num) (by omega)))
      simp [h4]

theorem mask_xor_canceler (w t : Nat) (h : t < w) :
    (2 ^ w - 2 ^ t) ^^^ 2 ^ t = 2 ^ w - 2 ^ (t + 1) := by
  apply Nat.eq_of_testBit_eq
  intro i
  rw [Nat.testBit_xor, testBit_two_pow_sub_pow w t i (by omega),
    testBit_two_pow_sub_pow w (t + 1) i (by omega), Nat.testBit_two_pow]
  rcases Nat.lt_trichotomy i t with h1 | h1 | h1
  · simp [show ¬ t ≤ i by omega, show ¬ t + 1 ≤ i by omega,
      show ¬ t = i by omega]
  · subst h1
    simp [h, show ¬ i + 1 ≤ i by omega]
  · simp [show t ≤ i by omega, show t + 1 ≤ i by omega, show ¬ t = i by omega]

theorem mask_and_mask (w a b : Nat) (hab : a ≤ b) (hb : b ≤ w) :
    (2 ^ w - 2 ^ a) &&& (2 ^ w - 2 ^ b) = 2 ^ w - 2 ^ b := by
  apply Nat.eq_of_testBit_eq
  intro i
  rw [Nat.testBit_and, testBit_two_pow_sub_pow w a i (by omega),
    testBit_two_pow_sub_pow w b i hb]
  by_cases h1 : b ≤ i
  · simp [h1, show a ≤ i by omega]
  · simp [h1]

theorem and_mask_mask (x w a b : Nat) (hab : a ≤ b) (hb : b ≤ w) :
    (x &&& (2 ^ w - 2 ^ a)) &&& (2 ^ w - 2 ^ b) = x &&& (2 ^ w - 2 ^ b) := by
  rw [Nat.land_assoc, mask_and_mask w a b hab hb]

theorem and_two_pow_ne_zero (q t : Nat) :
    (q &&& 2 ^ t ≠ 0) ↔ q / 2 ^ t % 2 = 1 := by
  rw [Nat.and_two_pow]
  cases h : q.testBit t
  · rw [Nat.testBit_to_div_mod] at h
    simp only [decide_eq_false_iff_not] at h
    simp [h]
  · rw [Nat.testBit_to_div_mod] at h
    simp only [decide_eq_true_eq] at h
    have hpos := Nat.two_pow_pos t
    simp only [h, Bool.toNat_true, Nat.one_mul, iff_true]
    omega

theorem two_pow_shiftLeft_one (t : Nat) : 2 ^ t <<< 1 = 2 ^ (t + 1) := by
  rw [Nat.shiftLeft_eq, pow_one, pow_succ]

theorem numberFrom_length {β : Type} :
    ∀ (l : List β) (i : Nat), (numberFrom i l).length = l.length
  | [], _ => rfl
  | _ :: t, i => by simp [numberFrom, numberFrom_length t (i + 1)]

theorem numberFrom_get {β : Type} :
    ∀ (l : List β) (i p : Nat),
      (numberFrom i l)[p]? = (l[p]?).map (fun a => (i + p, a))
  | [], i, p => by simp [numberFrom]
  | a :: t, i, 0 => by simp [numberFrom]
  | a :: t, i, p + 1 => by
    simp only [numberFrom, List.getElem?_cons_succ, numberFrom_get t (i + 1) p]
    rw [show i + 1 + p = i + (p + 1) by omega]

theorem numberFrom_map_snd {β : Type} :
    ∀ (l : List β) (i : Nat), (numberFrom i l).map Prod.snd = l
  | [], _ => rfl
  | a :: t, i => by simp [numberFrom, numberFrom_map_snd t (i + 1)]

theorem pairIndexed_fst_length (H : α → α → α) (M C ps pl : Nat) :
    ∀ (lst : List (Nat × α)) (pf : Nat → List α),
      (pairIndexed H M C ps pl lst pf).1.length = (lst.length + 1) / 2
  | [], _ => by simp [pairIndexed]
  | [_], _ => by simp [pairIndexed]
  | (i1, h1) :: (i2, h2) :: t, pf => by
    simp only [pairIndexed, List.length_cons,
      pairIndexed_fst_length H M C ps pl t _]
    omega

theorem pairIndexed_fst_map_snd (H : α → α → α) (M C ps pl : Nat) :
    ∀ (lst : List (Nat × α)) (pf : Nat → List α),
      (pairIndexed H M C ps pl lst pf).1.map Prod.snd
        = hashLevel H (lst.map Prod.snd)
  | [], _ => by simp [pairIndexed, hashLevel]
  | [_], _ => by simp [pairIndexed, hashLevel]
  | (i1, h1) :: (i2, h2) :: t, pf => by
    simp only [pairIndexed, List.map_cons,
      pairIndexed_fst_map_snd H M C ps pl t _]
    rfl

theorem pairIndexed_fst_get_pair (H : α → α → α) (M C ps pl : Nat) :
    ∀ (lst : List (Nat × α)) (pf : Nat → List α) (p i1 : Nat) (h1 : α)
      (i2 : Nat) (h2 : α),
      lst[2 * p]? = some (i1, h1) → lst[2 * p + 1]? = some (i2, h2) →
      (pairIndexed H M C ps pl lst pf).1[p]? = some (i1 &&& M, H h1 h2)
  | [], _, p, _, _, _, _ => by simp
  | [e], _, p, _, _, _, _ => by
    intro _ hb
    rcases Nat.eq_zero_or_pos p with rfl | hp
    · simp at hb
    · rw [List.getElem?_eq_none
        (by simp only [List.length_singleton]; omega)] at hb
      exact Option.noConfusion hb
  | (a1, b1) :: (a2, b2) :: t, pf, 0, i1, h1, i2, h2 => by
    intro ha hb
    simp only [Nat.mul_zero, List.getElem?_cons_succ, List.getElem?_cons_zero,
      Option.some_inj, Prod.mk.injEq] at ha hb
    simp only [pairIndexed, List.getElem?_cons_zero, Option.some_inj,
      Prod.mk.injEq]
    exact ⟨by rw [ha.1], by rw [ha.2, hb.2]⟩
  | (a1, b1) :: (a2, b2) :: t, pf, p + 1, i1, h1, i2, h2 => by
    intro ha hb
    rw [show 2 * (p + 1) = 2 * p + 1 + 1 by omega] at ha hb
    simp only [List.getElem?_cons_succ] at ha hb
    simp only [pairIndexed, List.getElem?_cons_succ]
    exact pairIndexed_fst_get_pair H M C ps pl t _ p i1 h1 i2 h2 ha hb

theorem pairIndexed_fst_get_carry (H : α → α → α) (M C ps pl : Nat) :
    ∀ (lst : List (Nat × α)) (pf : Nat → List α) (p : Nat) (e : Nat × α),
      lst[2 * p]? = some e → lst[2 * p + 1]? = none →
      (pairIndexed H M C ps pl lst pf).1[p]? = some e
  | [], _, p, _ => by simp
  | [e0], _, p, e => by
    intro ha _
    rcases Nat.eq_zero_or_pos p with rfl | hp
    · simp at ha
      simp [pairIndexed, ha]
    · rw [List.getElem?_eq_none
        (by simp only [List.length_singleton]; omega)] at ha
      exact Option.noConfusion ha
  | (a1, b1) :: (a2, b2) :: t, pf, 0, e => by
    intro _ hb
    simp at hb
  | (a1, b1) :: (a2, b2) :: t, pf, p + 1, e => by
    intro ha hb
    rw [show 2 * (p + 1) = 2 * p + 1 + 1 by omega] at ha hb
    simp only [List.getElem?_cons_succ] at ha hb
    simp only [pairIndexed, List.getElem?_cons_succ]
    exact pairIndexed_fst_get_carry H M C ps pl t _ p e ha hb

theorem pairIndexed_snd (H : α → α → α) (M C ps pl : Nat) :
    ∀ (lst : List (Nat × α)) (pf : Nat → List α) (q : Nat),
      (pairIndexed H M C ps pl lst pf).2 q
        = pf q ++ pairContrib M C ps pl q lst
  | [], _, _ => by simp [pairIndexed, pairContrib]
  | [_], _, _ => by simp [pairIndexed, pairContrib]
  | (a1, b1) :: (a2, b2) :: t, pf, q => by
    simp only [pairIndexed]
    rw [pairIndexed_snd H M C ps pl t _ q]
    simp only [pairContrib]
    by_cases hc : ps ≤ q ∧ q ≤ pl ∧ q &&& M = a1 &&& M
    · rw [if_pos hc, if_pos hc, List.append_assoc]
    · rw [if_neg hc, if_neg hc]
      simp

theorem pairContrib_eq_nil (M C ps pl q S : Nat) (hS : 0 < S) :
    ∀ (lst : List (Nat × α)) (d : Nat),
      q &&& M = S * (q / S) →
      (∀ (p i : Nat) (h : α), lst[2 * p]? = some (i, h) →
        i &&& M = S * (d + p)) →
      (∀ p : Nat, 2 * p + 1 < lst.length → q / S ≠ d + p) →
      pairContrib M C ps pl q lst = []
  | [], _, _, _, _ => by simp [pairContrib]
  | [_], _, _, _, _ => by simp [pairContrib]
  | (a1, b1) :: (a2, b2) :: t, d, hq, hheads, hnot => by
    have hhead : a1 &&& M = S * (d + 0) := hheads 0 a1 b1 (by simp)
    have hcond : ¬ (ps ≤ q ∧ q ≤ pl ∧ q &&& M = a1 &&& M) := by
      rintro ⟨-, -, hc⟩
      rw [hq, hhead] at hc
      have hqd : q / S = d + 0 := Nat.eq_of_mul_eq_mul_left hS hc
      exact hnot 0 (by simp only [List.length_cons]; omega) hqd
    simp only [pairContrib, if_neg hcond, List.nil_append]
    apply pairContrib_eq_nil M C ps pl q S hS t (d + 1) hq
    · intro p i h hp
      have hstep := hheads (p + 1) i h
        (by rw [show 2 * (p + 1) = 2 * p + 1 + 1 by omega,
          List.getElem?_cons_succ, List.getElem?_cons_succ]; exact hp)
      rw [hstep]
      congr 1
      omega
    · intro p hp hcon
      exact hnot (p + 1) (by simp only [List.length_cons]; omega) (by omega)

theorem pairContrib_eq_single (M C ps pl q S : Nat) (hS : 0 < S)
    (hq1 : ps ≤ q) (hq2 : q ≤ pl) :
    ∀ (lst : List (Nat × α)) (d p0 i1 : Nat) (h1 : α) (i2 : Nat) (h2 : α),
      q &&& M = S * (q / S) →
      (∀ (p i : Nat) (h : α), lst[2 * p]? = some (i, h) →
        i &&& M = S * (d + p)) →
      q / S = d + p0 →
      lst[2 * p0]? = some (i1, h1) → lst[2 * p0 + 1]? = some (i2, h2) →
      pairContrib M C ps pl q lst = [if q &&& C ≠ 0 then h1 else h2]
  | [], _, p0, _, _, _, _, _, _, _, ha, _ => by simp at ha
  | [e], _, p0, _, _, _, _, _, _, _, _, hb => by
    rcases Nat.eq_zero_or_pos p0 with rfl | hp
    · simp at hb
    · rw [List.getElem?_eq_none
        (by simp only [List.length_singleton]; omega)] at hb
      exact Option.noConfusion hb
  | (a1, b1) :: (a2, b2) :: t, d, 0, i1, h1, i2, h2, hq, hheads, hp0, ha, hb => by
    simp only [Nat.mul_zero, List.getElem?_cons_succ, List.getElem?_cons_zero,
      Option.some_inj, Prod.mk.injEq] at ha hb
    have hhead : a1 &&& M = S * (d + 0) := hheads 0 a1 b1 (by simp)
    have hcond : ps ≤ q ∧ q ≤ pl ∧ q &&& M = a1 &&& M := by
      refine ⟨hq1, hq2, ?_⟩
      rw [hq, hhead, hp0]
    simp only [pairContrib, if_pos hcond]
    have htail : pairContrib M C ps pl q t = [] := by
      apply pairContrib_eq_nil M C ps pl q S hS t (d + 1) hq
      · intro p i h hp
        have hstep := hheads (p + 1) i h
          (by rw [show 2 * (p + 1) = 2 * p + 1 + 1 by omega,
            List.getElem?_cons_succ, List.getElem?_cons_succ]; exact hp)
        rw [hstep]
        congr 1
        omega
      · intro p hp hcon
        omega
    rw [htail, ha.2, hb.2]
    simp
  | (a1, b1) :: (a2, b2) :: t, d, p0 + 1, i1, h1, i2, h2, hq, hheads, hp0, ha, hb => by
    rw [show 2 * (p0 + 1) = 2 * p0 + 1 + 1 by omega] at ha hb
    simp only [List.getElem?_cons_succ] at ha hb
    have hcond : ¬ (ps ≤ q ∧ q ≤ pl ∧ q &&& M = a1 &&& M) := by
      rintro ⟨-, -, hc⟩
      have hhead : a1 &&& M = S * (d + 0) := hheads 0 a1 b1 (by simp)
      rw [hq, hhead] at hc
      have hqd := Nat.eq_of_mul_eq_mul_left hS hc
      omega
    simp only [pairContrib, if_neg hcond, List.nil_append]
    exact pairContrib_eq_single M C ps pl q S hS hq1 hq2 t (d + 1) p0 i1 h1 i2 h2
      hq
      (fun p i h hp => by
        have hstep := hheads (p + 1) i h
          (by rw [show 2 * (p + 1) = 2 * p + 1 + 1 by omega,
            List.getElem?_cons_succ, List.getElem?_cons_succ]; exact hp)
        rw [hstep]
        congr 1
        omega)
      (by omega) ha hb

theorem foldAuditF_fuel (H : α → α → α) :
    ∀ f1 : Nat, ∀ f2 p n : Nat, ∀ (acc : α) (proof : List α),
      1 ≤ n → n ≤ f1 → n ≤ f2 →
      foldAuditF H f1 p n acc proof = foldAuditF H f2 p n acc proof := by
  intro f1
  induction f1 using Nat.strong_induction_on with
  | _ f1 ih =>
    intro f2 p n acc proof hn h1 h2
    obtain ⟨f1a, rfl⟩ : ∃ k, f1 = k + 1 := ⟨f1 - 1, by omega⟩
    obtain ⟨f2a, rfl⟩ : ∃ k, f2 = k + 1 := ⟨f2 - 1, by omega⟩
    by_cases hsmall : n ≤ 1
    · simp only [foldAuditF, if_pos hsmall]
    · simp only [foldAuditF, if_neg hsmall]
      have hb1 : (n + 1) / 2 ≤ f1a := by omega
      have hb2 : (n + 1) / 2 ≤ f2a := by omega
      have hb3 : 1 ≤ (n + 1) / 2 := by omega
      by_cases hodd : p % 2 = 1
      · simp only [if_pos hodd]
        cases proof with
        | nil => rfl
        | cons e rest => exact ih f1a (by omega) f2a _ _ _ _ hb3 hb1 hb2
      · simp only [if_neg hodd]
        by_cases hlt : p + 1 < n
        · simp only [if_pos hlt]
          cases proof with
          | nil => rfl
          | cons e rest => exact ih f1a (by omega) f2a _ _ _ _ hb3 hb1 hb2
        · simp only [if_neg hlt]
          exact ih f1a (by omega) f2a _ _ _ _ hb3 hb1 hb2

theorem getElem?_pair (l : List (Nat × α)) (j : Nat) (hj : j < l.length) :
    ∃ ia ha, l[j]? = some (ia, ha) :=
  ⟨(l.get ⟨j, hj⟩).1, (l.get ⟨j, hj⟩).2, by
    rw [List.getElem?_eq_getElem hj]
    rfl⟩

theorem foldAudit_base (H : α → α → α) (acc : α) :
    foldAudit H 0 1 acc [] = some acc := by
  have h : foldAuditF H (0 + 1) 0 1 acc [] = some acc := by
    simp [foldAuditF]
  exact h

theorem proofLoopF_short (H : α → α → α) (ps pl : Nat) :
    ∀ (f mask can : Nat) (cur : List (Nat × α)) (pf : Nat → List α),
      cur.length ≤ 1 →
      proofLoopF H ps pl f mask can cur pf = (cur, pf)
  | 0, _, _, cur, pf, _ => by simp [proofLoopF]
  | f + 1, mask, can, cur, pf, h => by
    simp only [proofLoopF, if_pos h]

theorem proofLoopF_spec (H : α → α → α) (ps pl w m : Nat) (hm : m ≤ 2 ^ w) :
    ∀ f : Nat, ∀ (t n : Nat) (cur : List (Nat × α)) (pf : Nat → List α),
      cur.length = n → 1 ≤ n → n ≤ f →
      (n - 1) * 2 ^ t < m → m ≤ n * 2 ^ t →
      (∀ (p i : Nat) (h : α), cur[p]? = some (i, h) →
        ∀ u : Nat, t ≤ u → u ≤ w →
          i &&& (2 ^ w - 2 ^ u) = 2 ^ u * (p * 2 ^ t / 2 ^ u)) →
      ∃ r0 : Nat × α,
        (proofLoopF H ps pl f (2 ^ w - 2 ^ t) (2 ^ t) cur pf).1 = [r0] ∧
        get_partial_tree_hash H (cur.map Prod.snd) = some r0.2 ∧
        ∀ q : Nat, ps ≤ q → q ≤ pl → q < m →
          ∃ (tail : List α) (d0 : α),
            (proofLoopF H ps pl f (2 ^ w - 2 ^ t) (2 ^ t) cur pf).2 q
              = pf q ++ tail ∧
            (cur.map Prod.snd)[q / 2 ^ t]? = some d0 ∧
            foldAudit H (q / 2 ^ t) n d0 tail = some r0.2 := by
  intro f
  induction f using Nat.strong_induction_on with
  | _ f ih =>
    intro t n cur pf hlen hn hf hlow hhigh hinv
    by_cases hn1 : n = 1
    · subst hn1
      obtain ⟨e, rfl⟩ : ∃ e, cur = [e] := by
        cases cur with
        | nil => simp at hlen
        | cons a tcur =>
          cases tcur with
          | nil => exact ⟨a, rfl⟩
          | cons b t2 =>
            simp only [List.length_cons] at hlen
            omega
      rw [proofLoopF_short H ps pl f _ _ [e] pf (by simp)]
      refine ⟨e, rfl, get_partial_tree_hash_single H e.2, ?_⟩
      intro q hq1 hq2 hq3
      have hq0 : q / 2 ^ t = 0 := Nat.div_eq_of_lt (by omega)
      refine ⟨[], e.2, by simp, ?_, ?_⟩
      · rw [hq0]
        simp
      · rw [hq0]
        exact foldAudit_base H e.2
    · have hn2 : 2 ≤ n := by omega
      obtain ⟨fa, rfl⟩ : ∃ k, f = k + 1 := ⟨f - 1, by omega⟩
      have hpow : 0 < 2 ^ t := Nat.two_pow_pos t
      have hpow1 : 0 < 2 ^ (t + 1) := Nat.two_pow_pos (t + 1)
      have htw : t < w := by
        have h1 : 2 ^ t < m :=
          Nat.lt_of_le_of_lt (Nat.le_mul_of_pos_left (2 ^ t) (by omega)) hlow
        have h2 : 2 ^ t < 2 ^ w := Nat.lt_of_lt_of_le h1 hm
        exact (Nat.pow_lt_pow_iff_right (by norm_num)).mp h2
      have hmask : (2 ^ w - 2 ^ t) ^^^ 2 ^ t = 2 ^ w - 2 ^ (t + 1) :=
        mask_xor_canceler w t htw
      have hcan : 2 ^ t <<< 1 = 2 ^ (t + 1) := two_pow_shiftLeft_one t
      obtain ⟨cur2, pf2, hpair⟩ :
          ∃ c2 p2, pairIndexed H (2 ^ w - 2 ^ (t + 1)) (2 ^ t) ps pl cur pf
            = (c2, p2) := ⟨_, _, rfl⟩
      have hstep : proofLoopF H ps pl (fa + 1) (2 ^ w - 2 ^ t) (2 ^ t) cur pf
          = proofLoopF H ps pl fa (2 ^ w - 2 ^ (t + 1)) (2 ^ (t + 1))
              cur2 pf2 := by
        simp only [proofLoopF, if_neg (show ¬ cur.length ≤ 1 by omega)]
        rw [hmask, hcan, hpair]
      have hlen2 : cur2.length = (n + 1) / 2 := by
        have hp := pairIndexed_fst_length H (2 ^ w - 2 ^ (t + 1)) (2 ^ t)
          ps pl cur pf
        rw [hpair] at hp
        rw [hlen] at hp
        exact hp
      have hsnd : cur2.map Prod.snd = hashLevel H (cur.map Prod.snd) := by
        have hp := pairIndexed_fst_map_snd H (2 ^ w - 2 ^ (t + 1)) (2 ^ t)
          ps pl cur pf
        rw [hpair] at hp
        exact hp
      have harg : ∀ k : Nat, 2 * k * 2 ^ t = k * 2 ^ (t + 1) := by
        intro k
        rw [pow_succ]
        ring
      have hinv2 : ∀ (p i : Nat) (h : α), cur2[p]? = some (i, h) →
          ∀ u : Nat, t + 1 ≤ u → u ≤ w →
            i &&& (2 ^ w - 2 ^ u) = 2 ^ u * (p * 2 ^ (t + 1) / 2 ^ u) := by
        intro p i h hsome u hu1 hu2
        have hplt : p < cur2.length := by
          by_contra hc
          rw [List.getElem?_eq_none (by omega)] at hsome
          exact Option.noConfusion hsome
        have h2p : 2 * p < cur.length := by
          rw [hlen2] at hplt
          omega
        obtain ⟨ia, ha, hea⟩ := getElem?_pair cur (2 * p) h2p
        rcases Nat.lt_or_ge (2 * p + 1) cur.length with hlt2 | hge2
        · obtain ⟨ib, hb, heb⟩ := getElem?_pair cur (2 * p + 1) hlt2
          have hcc := pairIndexed_fst_get_pair H (2 ^ w - 2 ^ (t + 1)) (2 ^ t)
            ps pl cur pf p ia ha ib hb hea heb
          rw [hpair] at hcc
          have hcc2 : cur2[p]?
              = some (ia &&& (2 ^ w - 2 ^ (t + 1)), H ha hb) := hcc
          rw [hcc2] at hsome
          simp only [Option.some_inj, Prod.mk.injEq] at hsome
          rw [← hsome.1, and_mask_mask ia w (t + 1) u (by omega) hu2,
            hinv (2 * p) ia ha hea u (by omega) hu2, harg p]
        · have hnone : cur[2 * p + 1]? = none := List.getElem?_eq_none hge2
          have hcc := pairIndexed_fst_get_carry H (2 ^ w - 2 ^ (t + 1)) (2 ^ t)
            ps pl cur pf p (ia, ha) hea hnone
          rw [hpair] at hcc
          have hcc2 : cur2[p]? = some (ia, ha) := hcc
          rw [hcc2] at hsome
          simp only [Option.some_inj, Prod.mk.injEq] at hsome
          rw [← hsome.1, hinv (2 * p) ia ha hea u (by omega) hu2, harg p]
      have hlow2 : ((n + 1) / 2 - 1) * 2 ^ (t + 1) < m := by
        rw [← harg]
        exact Nat.lt_of_le_of_lt
          (Nat.mul_le_mul_right (2 ^ t) (show 2 * ((n + 1) / 2 - 1) ≤ n - 1
            by omega)) hlow
      have hhigh2 : m ≤ (n + 1) / 2 * 2 ^ (t + 1) := by
        rw [← harg]
        exact Nat.le_trans hhigh
          (Nat.mul_le_mul_right (2 ^ t) (show n ≤ 2 * ((n + 1) / 2) by omega))
      obtain ⟨r0, hr1, hr2, hr3⟩ :=
        ih fa (by omega) (t + 1) ((n + 1) / 2) cur2 pf2 hlen2 (by omega)
          (by omega) hlow2 hhigh2 hinv2
      refine ⟨r0, ?_, ?_, ?_⟩
      · rw [hstep]
        exact hr1
      · rw [get_partial_tree_hash_step H (cur.map Prod.snd)
          (by rw [List.length_map, hlen]; omega), ← hsnd]
        exact hr2
      · intro q hq1 hq2 hq3
        obtain ⟨tail2, d2, htail2, hd2, hfold2⟩ := hr3 q hq1 hq2 hq3
        have hqw : q < 2 ^ w := Nat.lt_of_lt_of_le hq3 hm
        have hqmask : q &&& (2 ^ w - 2 ^ (t + 1))
            = 2 ^ (t + 1) * (q / 2 ^ (t + 1)) :=
          and_two_pow_sub_pow q w (t + 1) hqw (by omega)
        have hheads : ∀ (p i : Nat) (h : α), cur[2 * p]? = some (i, h) →
            i &&& (2 ^ w - 2 ^ (t + 1)) = 2 ^ (t + 1) * (0 + p) := by
          intro p i h hp
          rw [hinv (2 * p) i h hp (t + 1) (by omega) (by omega), harg p,
            Nat.mul_div_cancel p hpow1]
          congr 1
          omega
        have hplt : q / 2 ^ t < n :=
          (Nat.div_lt_iff_lt_mul hpow).mpr (Nat.lt_of_lt_of_le hq3 hhigh)
        have hp2 : q / 2 ^ (t + 1) = q / 2 ^ t / 2 := by
          rw [Nat.div_div_eq_div_mul, ← pow_succ]
        have hpfq : (proofLoopF H ps pl (fa + 1) (2 ^ w - 2 ^ t) (2 ^ t)
              cur pf).2 q
            = pf q ++ (pairContrib (2 ^ w - 2 ^ (t + 1)) (2 ^ t) ps pl q cur
                ++ tail2) := by
          rw [hstep, htail2]
          have hpf2 : pf2 q
              = pf q
                ++ pairContrib (2 ^ w - 2 ^ (t + 1)) (2 ^ t) ps pl q cur := by
            have hp := pairIndexed_snd H (2 ^ w - 2 ^ (t + 1)) (2 ^ t)
              ps pl cur pf q
            rw [hpair] at hp
            exact hp
          rw [hpf2, List.append_assoc]
        rw [hp2] at hd2 hfold2
        by_cases hoddp : q / 2 ^ t % 2 = 1
        · have hlt1 : 2 * (q / 2 ^ t / 2) < cur.length := by omega
          obtain ⟨ia, ha, hea⟩ := getElem?_pair cur (2 * (q / 2 ^ t / 2)) hlt1
          have hlt2 : 2 * (q / 2 ^ t / 2) + 1 < cur.length := by omega
          obtain ⟨ib, hb, heb⟩ :=
            getElem?_pair cur (2 * (q / 2 ^ t / 2) + 1) hlt2
          have hcs := pairContrib_eq_single (2 ^ w - 2 ^ (t + 1)) (2 ^ t)
            ps pl q (2 ^ (t + 1)) hpow1 hq1 hq2 cur 0 (q / 2 ^ t / 2)
            ia ha ib hb hqmask hheads (by rw [hp2]; omega) hea heb
          rw [if_pos ((and_two_pow_ne_zero q t).mpr hoddp)] at hcs
          rw [hcs] at hpfq
          have heb2 := heb
          rw [show 2 * (q / 2 ^ t / 2) + 1 = q / 2 ^ t by omega] at heb2
          have hd0 : (cur.map Prod.snd)[q / 2 ^ t]? = some hb := by
            rw [List.getElem?_map, heb2]
            rfl
          have hcur2p : cur2[q / 2 ^ t / 2]?
              = some (ia &&& (2 ^ w - 2 ^ (t + 1)), H ha hb) := by
            have hcc := pairIndexed_fst_get_pair H (2 ^ w - 2 ^ (t + 1))
              (2 ^ t) ps pl cur pf (q / 2 ^ t / 2) ia ha ib hb hea heb
            rw [hpair] at hcc
            exact hcc
          have hmap : (cur2.map Prod.snd)[q / 2 ^ t / 2]? = some (H ha hb) := by
            rw [List.getElem?_map, hcur2p]
            rfl
          rw [hmap] at hd2
          injection hd2 with hd2e
          obtain ⟨na, hna⟩ : ∃ k, n = k + 1 := ⟨n - 1, by omega⟩
          refine ⟨[ha] ++ tail2, hb, hpfq, hd0, ?_⟩
          subst hna
          simp only [List.singleton_append]
          show foldAuditF H (na + 1) (q / 2 ^ t) (na + 1) hb (ha :: tail2)
            = some r0.2
          simp only [foldAuditF]
          rw [if_neg (show ¬ na + 1 ≤ 1 by omega), if_pos hoddp]
          show foldAuditF H na (q / 2 ^ t / 2) ((na + 1 + 1) / 2) (H ha hb)
            tail2 = some r0.2
          rw [foldAuditF_fuel H na ((na + 1 + 1) / 2) (q / 2 ^ t / 2)
            ((na + 1 + 1) / 2) (H ha hb) tail2 (by omega) (by omega)
            (by omega)]
          rw [hd2e]
          exact hfold2
        · have hlt1 : 2 * (q / 2 ^ t / 2) < cur.length := by omega
          obtain ⟨ia, ha, hea⟩ := getElem?_pair cur (2 * (q / 2 ^ t / 2)) hlt1
          have hea2 := hea
          rw [show 2 * (q / 2 ^ t / 2) = q / 2 ^ t by omega] at hea2
          have hd0 : (cur.map Prod.snd)[q / 2 ^ t]? = some ha := by
            rw [List.getElem?_map, hea2]
            rfl
          by_cases hlast : q / 2 ^ t + 1 < n
          · have hlt2 : 2 * (q / 2 ^ t / 2) + 1 < cur.length := by omega
            obtain ⟨ib, hb, heb⟩ :=
              getElem?_pair cur (2 * (q / 2 ^ t / 2) + 1) hlt2
            have hcs := pairContrib_eq_single (2 ^ w - 2 ^ (t + 1)) (2 ^ t)
              ps pl q (2 ^ (t + 1)) hpow1 hq1 hq2 cur 0 (q / 2 ^ t / 2)
              ia ha ib hb hqmask hheads (by rw [hp2]; omega) hea heb
            have hnotne : ¬ (q &&& 2 ^ t ≠ 0) := fun hne =>
              absurd ((and_two_pow_ne_zero q t).mp hne) (by omega)
            rw [if_neg hnotne] at hcs
            rw [hcs] at hpfq
            have hcur2p : cur2[q / 2 ^ t / 2]?
                = some (ia &&& (2 ^ w - 2 ^ (t + 1)), H ha hb) := by
              have hcc := pairIndexed_fst_get_pair H (2 ^ w - 2 ^ (t + 1))
                (2 ^ t) ps pl cur pf (q / 2 ^ t / 2) ia ha ib hb hea heb
              rw [hpair] at hcc
              exact hcc
            have hmap : (cur2.map Prod.snd)[q / 2 ^ t / 2]?
                = some (H ha hb) := by
              rw [List.getElem?_map, hcur2p]
              rfl
            rw [hmap] at hd2
            injection hd2 with hd2e
            obtain ⟨na, hna⟩ : ∃ k, n = k + 1 := ⟨n - 1, by omega⟩
            refine ⟨[hb] ++ tail2, ha, hpfq, hd0, ?_⟩
            subst hna
            simp only [List.singleton_append]
            show foldAuditF H (na + 1) (q / 2 ^ t) (na + 1) ha (hb :: tail2)
              = some r0.2
            simp only [foldAuditF]
            rw [if_neg (show ¬ na + 1 ≤ 1 by omega),
              if_neg (show ¬ q / 2 ^ t % 2 = 1 by omega), if_pos hlast]
            show foldAuditF H na (q / 2 ^ t / 2) ((na + 1 + 1) / 2) (H ha hb)
              tail2 = some r0.2
            rw [foldAuditF_fuel H na ((na + 1 + 1) / 2) (q / 2 ^ t / 2)
              ((na + 1 + 1) / 2) (H ha hb) tail2 (by omega) (by omega)
              (by omega)]
            rw [hd2e]
            exact hfold2
          · have hnone : cur[2 * (q / 2 ^ t / 2) + 1]? = none :=
              List.getElem?_eq_none (by omega)
            have hcs := pairContrib_eq_nil (2 ^ w - 2 ^ (t + 1)) (2 ^ t)
              ps pl q (2 ^ (t + 1)) hpow1 cur 0 hqmask hheads
              (fun pz hplen hcon => by
                rw [hp2] at hcon
                omega)
            rw [hcs] at hpfq
            simp only [List.nil_append] at hpfq
            have hcur2p : cur2[q / 2 ^ t / 2]? = some (ia, ha) := by
              have hcc := pairIndexed_fst_get_carry H (2 ^ w - 2 ^ (t + 1))
                (2 ^ t) ps pl cur pf (q / 2 ^ t / 2) (ia, ha) hea hnone
              rw [hpair] at hcc
              exact hcc
            have hmap : (cur2.map Prod.snd)[q / 2 ^ t / 2]? = some ha := by
              rw [List.getElem?_map, hcur2p]
              rfl
            rw [hmap] at hd2
            injection hd2 with hd2e
            obtain ⟨na, hna⟩ : ∃ k, n = k + 1 := ⟨n - 1, by omega⟩
            refine ⟨tail2, ha, hpfq, hd0, ?_⟩
            subst hna
            show foldAuditF H (na + 1) (q / 2 ^ t) (na + 1) ha tail2
              = some r0.2
            simp only [foldAuditF]
            rw [if_neg (show ¬ na + 1 ≤ 1 by omega),
              if_neg (show ¬ q / 2 ^ t % 2 = 1 by omega), if_neg hlast]
            show foldAuditF H na (q / 2 ^ t / 2) ((na + 1 + 1) / 2) ha tail2
              = some r0.2
            rw [foldAuditF_fuel H na ((na + 1 + 1) / 2) (q / 2 ^ t / 2)
              ((na + 1 + 1) / 2) ha tail2 (by omega) (by omega) (by omega)]
            rw [hd2e]
            exact hfold2

theorem compute_proofs_audit (H : α → α → α) (ps pl : Nat) (hashes : List α)
    (hlen : hashes.length = pl + 1)
    (hpow : pl = 0 ∨ ¬ ∃ j : Nat, pl = 2 ^ j) :
    ∃ root : α,
      (compute_proofs H ps pl hashes).1 = some root ∧
      ∀ k : Nat, ps ≤ k → k ≤ pl →
        ∃ leaf : α,
          hashes[k]? = some leaf ∧
          foldAudit H k (pl + 1) leaf ((compute_proofs H ps pl hashes).2 k)
            = some root := by
  by_cases hpl0 : pl = 0
  · subst hpl0
    obtain ⟨a, rfl⟩ : ∃ a, hashes = [a] := by
      cases hashes with
      | nil => simp at hlen
      | cons x tl =>
        cases tl with
        | nil => exact ⟨x, rfl⟩
        | cons y t2 =>
          simp only [List.length_cons] at hlen
          omega
    have hcp : compute_proofs H ps 0 [a]
        = (some a, fun _ => ([] : List α)) := by
      simp only [compute_proofs]
      rw [proofLoopF_short H ps 0]
      · simp [numberFrom]
      · simp [numberFrom]
    refine ⟨a, by rw [hcp], ?_⟩
    intro k hk1 hk2
    have hk0 : k = 0 := by omega
    subst hk0
    refine ⟨a, by simp, ?_⟩
    rw [hcp]
    exact foldAudit_base H a
  · have hnp : ¬ ∃ j : Nat, pl = 2 ^ j := by
      rcases hpow with h | h
      · exact absurd h hpl0
      · exact h
    have hplw : pl < 2 ^ clog2 pl := by
      have hle := le_two_pow_clog2 pl
      rcases Nat.lt_or_ge pl (2 ^ clog2 pl) with h | h
      · exact h
      · exact absurd ⟨clog2 pl, by omega⟩ hnp
    have hm : pl + 1 ≤ 2 ^ clog2 pl := by omega
    obtain ⟨cur0, hcur0⟩ : ∃ c, numberFrom 0 hashes = c := ⟨_, rfl⟩
    have hc0len : cur0.length = pl + 1 := by
      rw [← hcur0, numberFrom_length, hlen]
    have hinv0 : ∀ (p i : Nat) (h : α), cur0[p]? = some (i, h) →
        ∀ u : Nat, 0 ≤ u → u ≤ clog2 pl →
          i &&& (2 ^ clog2 pl - 2 ^ u) = 2 ^ u * (p * 2 ^ 0 / 2 ^ u) := by
      intro p i h hsome u hu0 huw
      have hplen : p < cur0.length := by
        by_contra hc
        rw [List.getElem?_eq_none (by omega)] at hsome
        exact Option.noConfusion hsome
      rw [← hcur0, numberFrom_get] at hsome
      have hplt2 : p < hashes.length := by omega
      rw [List.getElem?_eq_getElem hplt2] at hsome
      simp only [Option.map_some', Option.some_inj, Prod.mk.injEq] at hsome
      have hi : i = p := by omega
      have hp2w : p < 2 ^ clog2 pl := by omega
      rw [hi, and_two_pow_sub_pow p (clog2 pl) u hp2w huw, pow_zero,
        Nat.mul_one]
    obtain ⟨r0, hr1, hr2, hr3⟩ := proofLoopF_spec H ps pl (clog2 pl) (pl + 1)
      hm (pl + 1) 0 (pl + 1) cur0 (fun _ => []) hc0len (by omega) (by omega)
      (by norm_num) (by norm_num) hinv0
    have h20 : (2 : Nat) ^ 0 = 1 := rfl
    rw [h20] at hr1
    refine ⟨r0.2, ?_, ?_⟩
    · simp only [compute_proofs]
      rw [if_pos (show 0 < pl by omega), hcur0, hc0len, hr1]
      simp
    · intro k hk1 hk2
      obtain ⟨tail, d0, htail, hd0, hfold⟩ := hr3 k hk1 hk2 (by omega)
      rw [h20, Nat.div_one] at hd0 hfold
      rw [← hcur0, numberFrom_map_snd] at hd0
      refine ⟨d0, hd0, ?_⟩
      have hsnd2 : (compute_proofs H ps pl hashes).2 k
          = (proofLoopF H ps pl (pl + 1) (2 ^ clog2 pl - 1) 1 cur0
              (fun _ => ([] : List α))).2 k := by
        simp only [compute_proofs]
        rw [if_pos (show 0 < pl by omega), hcur0, hc0len]
      rw [h20] at htail
      rw [hsnd2, htail]
      simp only [List.nil_append]
      exact hfold

end ProofsLemmas

/-- Sanity instance of `compute_proofs_audit` at a non-power-of-two
`last_package`: with four packages (last_package = 3) every package's recorded
proof folds back to the returned root. -/
theorem compute_proofs_four_packages :
    (compute_proofs Digest.node 0 3
        [Digest.leaf 0, Digest.leaf 1, Digest.leaf 2, Digest.leaf 3]).1
      = some (Digest.node (Digest.node (Digest.leaf 0) (Digest.leaf 1))
          (Digest.node (Digest.leaf 2) (Digest.leaf 3))) ∧
    ∀ k ∈ [0, 1, 2, 3], ∀ leaf ∈ [Digest.leaf k],
      foldAudit Digest.node k 4 leaf
          ((compute_proofs Digest.node 0 3
              [Digest.leaf 0, Digest.leaf 1, Digest.leaf 2,
                Digest.leaf 3]).2 k)
        = some (Digest.node (Digest.node (Digest.leaf 0) (Digest.leaf 1))
            (Digest.node (Digest.leaf 2) (Digest.leaf 3))) := by
  decide

/-- Claim C2: for every package number k in [start_package, last_package]
processed by compute_proofs, folding the merkle_proof written to k's info
file, starting from that package's pkg_hash as the leaf and choosing left or
right at each level according to k's position, reproduces the global root hash
that compute_proofs itself returns.  REFUTED at start_package = 0,
last_package = 1 with two package hashes: the initial mask
`(1 << int(math.ceil(math.log(last_package) / math.log(2)))) - 1 = 0`
(hashbundles.py lines 209-212) is one bit too narrow whenever last_package is
a positive power of two, so the final package's recorded proof stays empty and
does not fold back to the root (the audit fold fails), while package 0's proof
does fold back.  For last_package = 0 or last_package not a power of two the
claim does hold: see `compute_proofs_audit`. -/
theorem compute_proofs_pow2_mask_failure :
    (compute_proofs Digest.node 0 1 [Digest.leaf 0, Digest.leaf 1]).1
      = some (Digest.node (Digest.leaf 0) (Digest.leaf 1)) ∧
    (compute_proofs Digest.node 0 1 [Digest.leaf 0, Digest.leaf 1]).2 1
      = [] ∧
    foldAudit Digest.node 1 2 (Digest.leaf 1)
        ((compute_proofs Digest.node 0 1 [Digest.leaf 0, Digest.leaf 1]).2 1)
      = none ∧
    (compute_proofs Digest.node 0 1 [Digest.leaf 0, Digest.leaf 1]).2 0
      = [Digest.leaf 1] ∧
    foldAudit Digest.node 0 2 (Digest.leaf 0)
        ((compute_proofs Digest.node 0 1 [Digest.leaf 0, Digest.leaf 1]).2 0)
      = some (Digest.node (Digest.leaf 0) (Digest.leaf 1)) := by
  decide

section SthLemmas

theorem skipWs_not_ws (c : Char) (cs : List Char) (h : isJsonWs c = false) :
    skipWs (c :: cs) = c :: cs := by
  simp [skipWs, List.dropWhile_cons, h]

theorem skipWs_ws (c : Char) (cs : List Char) (h : isJsonWs c = true) :
    skipWs (c :: cs) = skipWs cs := by
  simp [skipWs, List.dropWhile_cons, h]

theorem takeWhile_append_all (p : Char → Bool) :
    ∀ (xs ys : List Char), (∀ c ∈ xs, p c = true) →
      ((xs ++ ys).takeWhile p = xs ++ ys.takeWhile p) ∧
      ((xs ++ ys).dropWhile p = ys.dropWhile p)
  | [], ys, _ => ⟨rfl, rfl⟩
  | x :: xs, ys, h => by
    have hx : p x = true := h x (by simp)
    have ih := takeWhile_append_all p xs ys (fun c hc => h c (by simp [hc]))
    simp [List.takeWhile_cons, List.dropWhile_cons, hx, ih.1, ih.2]

theorem takeWhile_head_false (p : Char → Bool) (y : Char) (ys : List Char)
    (h : p y = false) :
    ((y :: ys).takeWhile p = []) ∧ ((y :: ys).dropWhile p = y :: ys) := by
  simp [List.takeWhile_cons, List.dropWhile_cons, h]

theorem digitChar_isDigit (d : Nat) (h : d < 10) :
    (Nat.digitChar d).isDigit = true := by
  interval_cases d <;> decide

theorem digitChar_toNat (d : Nat) (h : d < 10) :
    (Nat.digitChar d).toNat - 48 = d := by
  interval_cases d <;> decide

theorem isDigit_not_ws (c : Char) (h : c.isDigit = true) : isJsonWs c = false := by
  by_contra hx
  simp only [Bool.not_eq_false, isJsonWs, Bool.or_eq_true, beq_iff_eq] at hx
  rcases hx with ((rfl | rfl) | rfl) | rfl <;> exact absurd h (by decide)

theorem isDigit_ne_quote (c : Char) (h : c.isDigit = true) : ¬ (c = quoteC) := by
  intro he
  rw [he] at h
  exact absurd h (by decide)

theorem digitsVal_append_digit (xs : List Char) (c : Char) :
    digitsVal (xs ++ [c]) = 10 * digitsVal xs + (c.toNat - 48) := by
  simp [digitsVal, List.foldl_append]

theorem digitsVal_single (c : Char) : digitsVal [c] = c.toNat - 48 := by
  simp [digitsVal]

theorem natCharsF_spec :
    ∀ (fuel n : Nat), n < 10 ^ (fuel + 1) →
      natCharsF (fuel + 1) n ≠ [] ∧
      (∀ c ∈ natCharsF (fuel + 1) n, c.isDigit = true) ∧
      digitsVal (natCharsF (fuel + 1) n) = n := by
  intro fuel
  induction fuel with
  | zero =>
    intro n hn
    have h10 : n < 10 := by norm_num at hn; omega
    have hstep : natCharsF (0 + 1) n = [Nat.digitChar n] := by
      show (if n < 10 then [Nat.digitChar n] else _) = _
      rw [if_pos h10]
    rw [hstep]
    refine ⟨by simp, ?_, ?_⟩
    · intro c hc
      rw [List.mem_singleton] at hc
      subst hc
      exact digitChar_isDigit n h10
    · rw [digitsVal_single, digitChar_toNat n h10]
  | succ f ih =>
    intro n hn
    by_cases h10 : n < 10
    · have hstep : natCharsF (f + 1 + 1) n = [Nat.digitChar n] := by
        show (if n < 10 then [Nat.digitChar n] else _) = _
        rw [if_pos h10]
      rw [hstep]
      refine ⟨by simp, ?_, ?_⟩
      · intro c hc
        rw [List.mem_singleton] at hc
        subst hc
        exact digitChar_isDigit n h10
      · rw [digitsVal_single, digitChar_toNat n h10]
    · have hd : n / 10 < 10 ^ (f + 1) := by
        rw [Nat.div_lt_iff_lt_mul (by norm_num)]
        calc n < 10 ^ (f + 1 + 1) := hn
          _ = 10 ^ (f + 1) * 10 := by rw [pow_succ]
      obtain ⟨ih1, ih2, ih3⟩ := ih (n / 10) hd
      have hmod : n % 10 < 10 := Nat.mod_lt _ (by norm_num)
      have hstep : natCharsF (f + 1 + 1) n
          = natCharsF (f + 1) (n / 10) ++ [Nat.digitChar (n % 10)] := by
        show (if n < 10 then [Nat.digitChar n] else _) = _
        rw [if_neg h10]
      rw [hstep]
      refine ⟨by simp, ?_, ?_⟩
      · intro c hc
        rw [List.mem_append] at hc
        rcases hc with hc | hc
        · exact ih2 c hc
        · rw [List.mem_singleton] at hc
          subst hc
          exact digitChar_isDigit _ hmod
      · rw [digitsVal_append_digit, ih3, digitChar_toNat _ hmod]
        omega

theorem natChars_spec (n : Nat) :
    natChars n ≠ [] ∧ (∀ c ∈ natChars n, c.isDigit = true) ∧
      digitsVal (natChars n) = n := by
  have hn : n < 10 ^ (n + 1) := by
    calc n < 10 ^ n := Nat.lt_pow_self (by norm_num) n
      _ ≤ 10 ^ (n + 1) := Nat.pow_le_pow_right (by norm_num) (by omega)
  exact natCharsF_spec n n hn

theorem parseStringLit_dumps (s : String) (rest : List Char)
    (hs : goodString s) :
    parseStringLit (quoteC :: (s.data ++ quoteC :: rest)) = some (s, rest) := by
  have hall : ∀ c ∈ s.data, (fun d => !(d == quoteC)) c = true := by
    intro c hc
    have h1 := (hs c hc).1
    simp [h1]
  have h1 := takeWhile_append_all (fun d => !(d == quoteC)) s.data
    (quoteC :: rest) hall
  have hq : (fun d => !(d == quoteC)) quoteC = false := by simp
  have h2 := takeWhile_head_false (fun d => !(d == quoteC)) quoteC rest hq
  have hdrop : (s.data ++ quoteC :: rest).dropWhile (fun d => !(d == quoteC))
      = quoteC :: rest := by rw [h1.2, h2.2]
  have htake : (s.data ++ quoteC :: rest).takeWhile (fun d => !(d == quoteC))
      = s.data := by rw [h1.1, h2.1]; simp
  simp only [parseStringLit, hdrop, htake]
  simp

theorem parseNumLit_natChars (n : Nat) (c : Char) (cs1 : List Char)
    (hcd : c.isDigit = false) :
    parseNumLit (natChars n ++ c :: cs1) = some (n, c :: cs1) := by
  obtain ⟨hne, hdig, hval⟩ := natChars_spec n
  have hall : ∀ x ∈ natChars n, isDigitCh x = true := fun x hx => hdig x hx
  have h1 := takeWhile_append_all isDigitCh (natChars n) (c :: cs1) hall
  have h2 := takeWhile_head_false isDigitCh c cs1 hcd
  have htake : (natChars n ++ c :: cs1).takeWhile isDigitCh = natChars n := by
    rw [h1.1, h2.1]; simp
  have hdrop : (natChars n ++ c :: cs1).dropWhile isDigitCh = c :: cs1 := by
    rw [h1.2, h2.2]
  unfold parseNumLit
  rw [htake, hdrop, if_neg (by simp [hne]), hval]

theorem parseVal_dumps (v : JVal) (c : Char) (cs1 : List Char)
    (hv : goodVal v)
    (hcd : c.isDigit = false) :
    parseVal (' ' :: (dumpVal v ++ c :: cs1)) = some (v, c :: cs1) := by
  match v with
  | JVal.str s =>
    have hgs : goodString s := hv
    have hshape : ' ' :: (dumpVal (JVal.str s) ++ c :: cs1)
        = ' ' :: (quoteC :: (s.data ++ quoteC :: (c :: cs1))) := by
      simp [dumpVal]
    rw [hshape]
    unfold parseVal
    rw [skipWs_ws ' ' _ (by decide), skipWs_not_ws quoteC _ (by decide)]
    simp only [parseStringLit_dumps s (c :: cs1) hgs]
    simp
  | JVal.num n =>
    obtain ⟨hne, hdig, _⟩ := natChars_spec n
    obtain ⟨d, t, hdt⟩ := List.exists_cons_of_ne_nil hne
    have hd : d.isDigit = true := by
      apply hdig
      rw [hdt]
      simp
    have hshape : ' ' :: (dumpVal (JVal.num n) ++ c :: cs1)
        = ' ' :: (d :: (t ++ c :: cs1)) := by
      show ' ' :: (natChars n ++ c :: cs1) = _
      rw [hdt]
      simp
    rw [hshape]
    unfold parseVal
    rw [skipWs_ws ' ' _ (by decide), skipWs_not_ws d _ (isDigit_not_ws d hd)]
    have hnq : ¬ (d = quoteC) := isDigit_ne_quote d hd
    have hback : d :: (t ++ c :: cs1) = natChars n ++ c :: cs1 := by
      rw [hdt]
      simp
    simp only [hnq, hd, if_false, if_true, ite_false, ite_true]
    rw [hback, parseNumLit_natChars n c cs1 hcd]
    rfl

theorem parseMembers_step (fuel : Nat) (k : String) (v : JVal) (c : Char)
    (cs1 : List Char) (acc : Json)
    (hk : goodString k) (hv : goodVal v)
    (hcw : isJsonWs c = false) (hcd : c.isDigit = false) :
    parseMembers (fuel + 1) (memberChars k v ++ c :: cs1) acc
      = if c = ',' then parseMembers fuel cs1 (acc ++ [(k, v)])
        else if c = cbraceC then some (acc ++ [(k, v)], cs1)
        else none := by
  have hA : memberChars k v ++ c :: cs1
      = quoteC :: (k.data ++ quoteC :: (':' :: ' ' :: (dumpVal v ++ c :: cs1))) := by
    simp [memberChars]
  have hB := parseStringLit_dumps k (':' :: ' ' :: (dumpVal v ++ c :: cs1)) hk
  have hD := parseVal_dumps v c cs1 hv hcd
  have hE : skipWs (c :: cs1) = c :: cs1 := skipWs_not_ws _ _ hcw
  simp only [parseMembers, hA, skipWs_not_ws quoteC _ (by decide), hB]
  simp only [skipWs_not_ws ':' _ (by decide)]
  simp only [if_true, ite_true, hD, hE]

theorem parseMembers_ws (fuel : Nat) (c : Char) (cs : List Char) (acc : Json)
    (h : isJsonWs c = true) :
    parseMembers (fuel + 1) (c :: cs) acc = parseMembers (fuel + 1) cs acc := by
  simp only [parseMembers, skipWs_ws c cs h]

theorem parseMembers_dumps :
    ∀ (o : Json) (fuel : Nat) (acc : Json) (rest : List Char),
      o ≠ [] → wfJson o → o.length ≤ fuel →
      parseMembers fuel (membersChars o ++ cbraceC :: rest) acc
        = some (acc ++ o, rest)
  | [], _, _, _, hne, _, _ => absurd rfl hne
  | [(k, v)], fuel, acc, rest, _, hwf, hfuel => by
    obtain ⟨hk, hv⟩ := hwf (k, v) (by simp)
    match fuel, hfuel with
    | fuel + 1, _ =>
      show parseMembers (fuel + 1) (memberChars k v ++ cbraceC :: rest) acc = _
      rw [parseMembers_step fuel k v cbraceC rest acc hk hv (by decide) (by decide)]
      rw [if_neg (by decide), if_pos rfl]
  | (k, v) :: (k2, v2) :: tl, fuel, acc, rest, _, hwf, hfuel => by
    obtain ⟨hk, hv⟩ := hwf (k, v) (by simp)
    match fuel, hfuel with
    | fuel + 1, hfuel =>
      have hshape : membersChars ((k, v) :: (k2, v2) :: tl) ++ cbraceC :: rest
          = memberChars k v
            ++ ',' :: (' ' :: (membersChars ((k2, v2) :: tl) ++ cbraceC :: rest)) := by
        show (memberChars k v ++ ',' :: ' ' :: membersChars ((k2, v2) :: tl))
            ++ cbraceC :: rest = _
        simp
      rw [hshape,
        parseMembers_step fuel k v ',' _ acc hk hv (by decide) (by decide),
        if_pos rfl]
      match fuel, hfuel with
      | fuel + 1, hfuel =>
        rw [parseMembers_ws fuel ' ' _ _ (by decide)]
        rw [parseMembers_dumps ((k2, v2) :: tl) (fuel + 1) (acc ++ [(k, v)]) rest
          (by simp) (fun p hp => hwf p (by simp [hp]))
          (by simp at hfuel ⊢; omega)]
        simp

theorem membersChars_length (o : Json) : o.length ≤ (membersChars o).length := by
  match o with
  | [] => simp
  | [(k, v)] => simp [membersChars, memberChars]
  | (k, v) :: (k2, v2) :: tl =>
    have ih := membersChars_length ((k2, v2) :: tl)
    show ((k, v) :: (k2, v2) :: tl).length
      ≤ (memberChars k v ++ ',' :: ' ' :: membersChars ((k2, v2) :: tl)).length
    simp [memberChars] at ih ⊢
    omega

theorem membersChars_cons_head (k : String) (v : JVal) (tl : Json) :
    ∃ t, membersChars ((k, v) :: tl) = quoteC :: t := by
  match tl with
  | [] => exact ⟨_, rfl⟩
  | p :: tl2 => exact ⟨_, rfl⟩

theorem loads_dumps (o : Json) (hwf : wfJson o) : loads (dumps o) = some o := by
  match o with
  | [] => rfl
  | (k, v) :: tl =>
    have hdata : (dumps ((k, v) :: tl)).data
        = obraceC :: (membersChars ((k, v) :: tl) ++ [cbraceC]) := by
      show obraceC :: membersChars ((k, v) :: tl) ++ [cbraceC] = _
      simp
    obtain ⟨t, ht⟩ := membersChars_cons_head k v tl
    have hshape : membersChars ((k, v) :: tl) ++ [cbraceC]
        = quoteC :: (t ++ [cbraceC]) := by rw [ht]; simp
    have hlen : ((k, v) :: tl).length
        ≤ (membersChars ((k, v) :: tl) ++ [cbraceC]).length + 1 := by
      have h1 := membersChars_length ((k, v) :: tl)
      simp only [List.length_append, List.length_cons, List.length_nil] at h1 ⊢
      omega
    have hpm := parseMembers_dumps ((k, v) :: tl)
      ((membersChars ((k, v) :: tl) ++ [cbraceC]).length + 1) [] []
      (by simp) hwf hlen
    simp only [loads, hdata, skipWs_not_ws obraceC _ (by decide), if_true]
    rw [hshape, skipWs_not_ws quoteC _ (by decide)]
    have hq : ¬ (quoteC = cbraceC) := by decide
    have hpm2 : parseMembers ((quoteC :: (t ++ [cbraceC])).length + 1)
        (quoteC :: (t ++ [cbraceC])) [] = some ([] ++ ((k, v) :: tl), []) := by
      rw [← hshape]
      exact hpm
    simp only [hq, if_false, ite_false, hpm2]
    simp [skipWs]

end SthLemmas

/-- Claim C7 (corrected): the bytes persisted for a verified STH are not the
response bytes but the default `json.dumps` re-serialisation of the parsed
response object (`write_sth`, `getct.py` line 57).  The re-serialisation
carries the same JSON object: parsing the written file returns the object
parsed from the response, and the written bytes coincide with the response
bytes exactly when the response already equals its own re-serialisation. -/
theorem sth_persisted_reserialized (s : String) (o : Json)
    (hload : loads s = some o) (hwf : wfJson o) :
    sthWrittenBytes s = some (dumps o) ∧
    loads (dumps o) = some o ∧
    (sthWrittenBytes s = some s ↔ s = dumps o) := by
  refine ⟨by simp [sthWrittenBytes, hload], loads_dumps o hwf, ?_⟩
  constructor
  · intro h
    rw [sthWrittenBytes, hload] at h
    simp at h
    exact h.symm
  · intro h
    rw [sthWrittenBytes, hload]
    simp [h]

/-- Witness for C7: a response already in `json.dumps` form parses to the
expected object and is persisted byte-for-byte. -/
theorem sth_persisted_reserialized_witness :
    sthWrittenBytes "\x7b\"tree_size\": 42\x7d"
      = some (dumps [("tree_size", JVal.num 42)]) ∧
    loads (dumps [("tree_size", JVal.num 42)])
      = some [("tree_size", JVal.num 42)] ∧
    (sthWrittenBytes "\x7b\"tree_size\": 42\x7d"
        = some "\x7b\"tree_size\": 42\x7d"
      ↔ "\x7b\"tree_size\": 42\x7d" = dumps [("tree_size", JVal.num 42)]) := by
  exact sth_persisted_reserialized "\x7b\"tree_size\": 42\x7d"
    [("tree_size", JVal.num 42)] (by decide) (by decide)

/-- Counterexample for C7 as stated: the compact response
`{"tree_size":42}` (no space after the colon) parses successfully, but the
bytes written are `{"tree_size": 42}` — `json.dumps` of the parsed object —
which differ from the response bytes, so the STH is not persisted verbatim. -/
theorem sth_not_verbatim :
    sthWrittenBytes "\x7b\"tree_size\":42\x7d"
      = some "\x7b\"tree_size\": 42\x7d" ∧
    "\x7b\"tree_size\": 42\x7d" ≠ "\x7b\"tree_size\":42\x7d" := by
  exact ⟨by decide, by decide⟩

end ATBTCT
